import Mathlib

/-!
# hnc: hiding bytes in the low bits of image channels

A shallow embedding of the codec of `src/main.cpp` (`create_image_encoder`, `write`,
`create_image_decoder`, `read`) and of `tl_main`: its argument loop and the two branches
that use the codec.

Conventions of the embedding.

* `u8` and `u32` values are natural numbers; every place where the C++ code narrows a
  value to `u8` or `u32` carries an explicit `% 256` or `% 2 ^ 32`.
* A `Span<u8>` is a `List Nat` of bytes; its `count` is the length of the list and is not
  bounded by `2 ^ 32`: the code narrows it where it stores it in a `u32`
  (`(u32)data.count`, line 241; the products of lines 37, 48 and 53).  The element
  accesses `channels[i]` and `data.front()` of a span are checked: an access outside the
  span ends the run with `Outcome.fault`.
* The two `while` loops are functions with a step budget (`fuel`); a run that is still
  looping when the budget is spent ends with `Outcome.timeout`.  The theorems give the
  budget that suffices.
* `read` stores through the raw pointer `dest_byte`; a store that lands outside the
  destination span does not stop the run, it is recorded in `ReadResult.overrun`.
* The calls to `print` are not modelled, apart from the message that precedes a
  `return 1` of `tl_main`.
* The functions of the `tl` and `stb` libraries that `tl_main` calls (`parse_u64`,
  `read_entire_file`, `stbi_load_from_memory`, `create_buffer`, `stbi_write_bmp`) are
  parameters.
-/

namespace Hnc

/-- How a run of `write` or `read` ends. -/
inductive Outcome (α : Type) where
  /-- The function returned the value `a`. -/
  | done (a : α) : Outcome α
  /-- A checked span access was out of range. -/
  | fault : Outcome α
  /-- The loop was still running when the step budget was spent. -/
  | timeout : Outcome α
  deriving DecidableEq, Repr

/-- The `struct ImageEncoder` of `main.cpp`, lines 24-31. -/
structure ImageEncoder where
  channels : List Nat
  current_channel_index : Nat
  mask : Nat
  bits_per_channel : Nat
  available_bits : Nat
  bits_written : Nat
  deriving DecidableEq, Repr

/-- The `switch (bits_per_channel)` that selects the mask (lines 39-43, 91-95); the mask
keeps its initial value `0` when no case applies. -/
def maskOf (bits_per_channel : Nat) : Nat :=
  match bits_per_channel with
  | 1 => 1
  | 2 => 3
  | 4 => 15
  | _ => 0

/-- The function `create_image_encoder` of `main.cpp`, lines 33-45.  The product
`channels.count * bits_per_channel` is narrowed to the `u32` field `available_bits`. -/
def create_image_encoder (channels : List Nat) (bits_per_channel : Nat) : ImageEncoder :=
  { channels := channels
    current_channel_index := 0
    mask := maskOf bits_per_channel
    bits_per_channel := bits_per_channel
    available_bits := (channels.length * bits_per_channel) % 2 ^ 32
    bits_written := 0 }

/-- The value stored in a channel by line 71 of `main.cpp`:
`(channel & ~mask) | result`, computed in 32 bits and narrowed to `u8`. -/
def putLow (mask ch result : Nat) : Nat :=
  ((ch &&& (2 ^ 32 - 1 - mask)) ||| result) % 256

/-- The `while (remaining_bits)` loop of `write` (`main.cpp`, lines 58-75).  The
arguments after the budget are the encoder, the rest of `data`, `remaining_bits`,
`remaining_value` and `remaining_value_bits`. -/
def writeLoop : Nat → ImageEncoder → List Nat → Nat → Nat → Nat → Outcome ImageEncoder
  | 0, encoder, _, remaining_bits, _, _ =>
    if remaining_bits = 0 then .done encoder else .timeout
  | fuel + 1, encoder, data, remaining_bits, remaining_value, remaining_value_bits =>
    if remaining_bits = 0 then .done encoder
    else
      let loaded : Option (Nat × Nat × List Nat) :=
        if remaining_value_bits = 0 then
          match data with
          | [] => none
          | front :: rest => some (front, 8, rest)
        else some (remaining_value, remaining_value_bits, data)
      match loaded with
      | none => .fault
      | some (value, value_bits, data1) =>
        let result := value &&& encoder.mask
        let value1 := (value >>> encoder.bits_per_channel) % 256
        let value_bits1 := ((value_bits + 2 ^ 32 - encoder.bits_per_channel) % 2 ^ 32) % 256
        match encoder.channels[encoder.current_channel_index]? with
        | none => .fault
        | some ch =>
          let encoder1 : ImageEncoder :=
            { encoder with
              channels := encoder.channels.set encoder.current_channel_index
                (putLow encoder.mask ch result)
              current_channel_index := (encoder.current_channel_index + 1) % 2 ^ 32 }
          writeLoop fuel encoder1 data1
            ((remaining_bits + 2 ^ 32 - encoder.bits_per_channel) % 2 ^ 32) value1 value_bits1

/-- The function `write` of `main.cpp`, lines 47-78: the returned pair is the `bool`
result and the encoder after the call. -/
def write (fuel : Nat) (encoder : ImageEncoder) (data : List Nat) :
    Outcome (Bool × ImageEncoder) :=
  let encoder1 : ImageEncoder :=
    { encoder with bits_written := (encoder.bits_written + data.length * 8) % 2 ^ 32 }
  if encoder1.bits_written > encoder1.available_bits then .done (false, encoder1)
  else
    match writeLoop fuel encoder1 data ((data.length * 8) % 2 ^ 32) 0 0 with
    | .done encoder2 => .done (true, encoder2)
    | .fault => .fault
    | .timeout => .timeout

/-- The `struct ImageDecoder` of `main.cpp`, lines 80-85. -/
structure ImageDecoder where
  channels : List Nat
  current_channel_index : Nat
  mask : Nat
  bits_per_channel : Nat
  deriving DecidableEq, Repr

/-- The function `create_image_decoder` of `main.cpp`, lines 87-97. -/
def create_image_decoder (channels : List Nat) (bits_per_channel : Nat) : ImageDecoder :=
  { channels := channels
    current_channel_index := 0
    mask := maskOf bits_per_channel
    bits_per_channel := bits_per_channel }

/-- What `read` leaves behind: its `bool` result, the decoder, the bytes of the
destination span, and whether a store through `dest_byte` fell outside that span. -/
structure ReadResult where
  ok : Bool
  decoder : ImageDecoder
  destination : List Nat
  overrun : Bool
  deriving DecidableEq, Repr

/-- The byte `*dest_byte` as the loop of `read` sees it; outside the destination span
the model reads `0`. -/
def loadDest (destination : List Nat) (dest_byte : Nat) : Nat :=
  destination.getD dest_byte 0

/-- The store `*dest_byte = v`: inside the destination span it replaces the byte, outside
it leaves the span alone and raises the overrun mark. -/
def storeDest (destination : List Nat) (overrun : Bool) (dest_byte v : Nat) :
    List Nat × Bool :=
  if dest_byte < destination.length then (destination.set dest_byte v, overrun)
  else (destination, true)

/-- The `while (1)` loop of `read` (`main.cpp`, lines 104-124).  The arguments after the
budget are the decoder, the destination bytes, the overrun mark, the offset of
`dest_byte` from `destination.data`, and `bits_read_from_byte`. -/
def readLoop : Nat → ImageDecoder → List Nat → Bool → Nat → Nat → Outcome ReadResult
  | 0, _, _, _, _, _ => .timeout
  | fuel + 1, decoder, destination, overrun, dest_byte, bits_read_from_byte =>
    if decoder.current_channel_index = decoder.channels.length then
      .done { ok := false, decoder := decoder, destination := destination,
              overrun := overrun }
    else
      match decoder.channels[decoder.current_channel_index]? with
      | none => .fault
      | some ch =>
        let val := ch &&& decoder.mask
        let stored := storeDest destination overrun dest_byte
          ((loadDest destination dest_byte ||| (val <<< bits_read_from_byte)) % 256)
        let decoder1 : ImageDecoder :=
          { decoder with
            current_channel_index := (decoder.current_channel_index + 1) % 2 ^ 32 }
        let bits1 := (bits_read_from_byte + decoder.bits_per_channel) % 256
        if bits1 = 8 then
          if dest_byte + 1 = destination.length then
            .done { ok := true, decoder := decoder1, destination := stored.1,
                    overrun := stored.2 }
          else
            let cleared := storeDest stored.1 stored.2 (dest_byte + 1) 0
            readLoop fuel decoder1 cleared.1 cleared.2 (dest_byte + 1) 0
        else
          readLoop fuel decoder1 stored.1 stored.2 dest_byte bits1

/-- The function `read` of `main.cpp`, lines 99-128; `destination` holds the bytes of
the destination span before the call. -/
def read (fuel : Nat) (decoder : ImageDecoder) (destination : List Nat) :
    Outcome ReadResult :=
  let cleared := storeDest destination false 0 0
  readLoop fuel decoder cleared.1 cleared.2 0 0

/-- The channel buffer after the loop of `write` has emitted the next `j` bit groups of
the byte `rv`, starting at channel `idx`. -/
def putGroups (m b : Nat) : Nat → List Nat → Nat → Nat → List Nat
  | 0, chans, _, _ => chans
  | j + 1, chans, idx, rv =>
    putGroups m b j (chans.set idx (putLow m (chans.getD idx 0) (rv &&& m))) (idx + 1) (rv >>> b)

/-- The channel buffer after the loop of `write` has emitted every byte of a list,
`8 / b` groups per byte, starting at channel `idx`. -/
def putBytes (m b : Nat) : List Nat → List Nat → Nat → List Nat
  | [], chans, _ => chans
  | v :: rest, chans, idx => putBytes m b rest (putGroups m b (8 / b) chans idx v) (idx + 8 / b)


/-- The byte that the loop of `read` has in `*dest_byte` after it has OR-ed in the
next `j` channels from `idx` on, starting from the value `acc` at bit offset `bits`. -/
def getGroups (m b : Nat) : Nat → List Nat → Nat → Nat → Nat → Nat
  | 0, _, _, acc, _ => acc
  | j + 1, chans, idx, acc, bits =>
    getGroups m b j chans (idx + 1) ((acc ||| ((chans.getD idx 0 &&& m) <<< bits)) % 256)
      (bits + b)

/-- The `n` bytes that the loop of `read` assembles from the channels from `idx` on. -/
def getBytes (m b : Nat) : Nat → List Nat → Nat → List Nat
  | 0, _, _ => []
  | n + 1, chans, idx => getGroups m b (8 / b) chans idx 0 0 :: getBytes m b n chans (idx + 8 / b)


/-- The bit groups of the byte `v`, least significant group first, as line 65 of
`main.cpp` extracts them. -/
def groupsOf (m b v : Nat) : List Nat :=
  (List.range (8 / b)).map (fun s => (v >>> (s * b)) &&& m)


/-- The encoder that a successful `write` leaves behind; `data.length % 2 ^ 29` is the
number of bytes that the 32-bit counter `remaining_bits` lets the loop emit. -/
def writeResult (enc : ImageEncoder) (data : List Nat) : ImageEncoder :=
  { enc with
    channels := putBytes enc.mask enc.bits_per_channel (data.take (data.length % 2 ^ 29))
      enc.channels enc.current_channel_index
    current_channel_index :=
      enc.current_channel_index + 8 / enc.bits_per_channel * (data.length % 2 ^ 29)
    bits_written := (enc.bits_written + data.length * 8) % 2 ^ 32 }


/-- Modelled from the spec: `value_as_bytes` of the `tl` library is not part of the
sources; the spec describes the header as the host's in-memory representation of a 32-bit
unsigned integer.  These are the four bytes of the `u32` value `n` on a little-endian
host. -/
def value_as_bytes (n : Nat) : List Nat :=
  [n % 256, n / 256 % 256, n / 65536 % 256, n / 16777216 % 256]

/-- The `u32` value whose four bytes, in the order of `value_as_bytes`, are the first
four entries of a list: what `data_size` holds after `read` has filled its bytes. -/
def value_of_bytes (bytes : List Nat) : Nat :=
  bytes.getD 0 0 + 256 * bytes.getD 1 0 + 65536 * bytes.getD 2 0 + 16777216 * bytes.getD 3 0

/-- The encode branch of `tl_main` (`main.cpp`, lines 239-246): the 32-bit length of
`data` is written, then `data`, on one encoder over the pixel buffer.  The result is
`none` when the branch returns `1` ("not enough space") and `some pixels` when it goes on
to `stbi_write_bmp` with the pixel buffer `pixels`. -/
def encode_branch (fuel : Nat) (pixels : List Nat) (bits_per_channel : Nat)
    (data : List Nat) : Outcome (Option (List Nat)) :=
  let encoder := create_image_encoder pixels bits_per_channel
  match write fuel encoder (value_as_bytes (data.length % 2 ^ 32)) with
  | .done (true, encoder1) =>
    match write fuel encoder1 data with
    | .done (true, encoder2) => .done (some encoder2.channels)
    | .done (false, _) => .done none
    | .fault => .fault
    | .timeout => .timeout
  | .done (false, _) => .done none
  | .fault => .fault
  | .timeout => .timeout

/-- The decode branch of `tl_main` (`main.cpp`, lines 211-229): four bytes are read into
`data_size` (initially `0`), then `data_size` bytes into a buffer from `create_buffer`.
The allocator `create_buffer` of the `tl` library is a parameter: it gives the initial
bytes of a buffer of the requested size.  The result is `none` when the branch returns
`1` and `some data` when it goes on to `write_entire_file` with `data`. -/
def decode_branch (fuel : Nat) (pixels : List Nat) (bits_per_channel : Nat)
    (create_buffer : Nat → List Nat) : Outcome (Option (List Nat)) :=
  let decoder := create_image_decoder pixels bits_per_channel
  match read fuel decoder (value_as_bytes 0) with
  | .done r1 =>
    if r1.ok then
      match read fuel r1.decoder (create_buffer (value_of_bytes r1.destination)) with
      | .done r2 => if r2.ok then .done (some r2.destination) else .done none
      | .fault => .fault
      | .timeout => .timeout
    else .done none
  | .fault => .fault
  | .timeout => .timeout

/-- The encoder states reached from a fresh encoder over `channels` by successful
`write` calls of byte sequences. -/
inductive Reachable (channels : List Nat) (bits_per_channel : Nat) : ImageEncoder → Prop where
  /-- The encoder returned by `create_image_encoder`. -/
  | fresh : Reachable channels bits_per_channel (create_image_encoder channels bits_per_channel)
  /-- The encoder after one more successful `write`. -/
  | step (enc enc1 : ImageEncoder) (fuel : Nat) (data : List Nat) :
      Reachable channels bits_per_channel enc → (∀ x ∈ data, x < 256) →
      write fuel enc data = .done (true, enc1) → Reachable channels bits_per_channel enc1

/-- What `tl_main` prints just before one of its `return 1` statements (`main.cpp`,
lines 140-251).  The two messages of the decode branch are one constructor, because
`decode_branch` does not tell the two failing reads apart. -/
inductive Message where
  | no_image_path_after_i
  | no_data_path_after_d
  | no_bit_count_after_b
  | failed_to_parse_bit_count
  | invalid_bit_count
  | unknown_argument (argument : String)
  | no_image_path
  | no_data_path
  | failed_to_read (path : String)
  | failed_to_load_image (path : String)
  | failed_to_decode
  | not_enough_space
  | failed_to_write_bmp
  deriving DecidableEq, Repr

/-- The local variables that the argument loop of `tl_main` sets (`main.cpp`, lines
135-138).  A path that has not been given (a span whose `data` is null) is `none`. -/
structure Settings where
  image_path : Option String
  data_path : Option String
  bits_per_channel : Nat
  decode : Bool
  deriving DecidableEq, Repr

/-- The argument loop of `tl_main` (`main.cpp`, lines 140-178) on the arguments from
index `1` on.  The library function `parse_u64` is a parameter: it gives the parsed
64-bit value of a string, or nothing.  Line 166 stores that value in the `u32` variable
`bits_per_channel`, which narrows it (`% 2 ^ 32`), and line 168 tests the narrowed
value.  The loop index is a `u32`: the argument list is taken to be shorter than
`2 ^ 32`. -/
def argument_loop (parse_u64 : String → Option Nat) :
    List String → Settings → Except Message Settings
  | [], settings => .ok settings
  | argument :: rest, settings =>
    if argument = "-i" then
      match rest with
      | [] => .error .no_image_path_after_i
      | value :: rest1 => argument_loop parse_u64 rest1 { settings with image_path := some value }
    else if argument = "-d" then
      match rest with
      | [] => .error .no_data_path_after_d
      | value :: rest1 => argument_loop parse_u64 rest1 { settings with data_path := some value }
    else if argument = "-b" then
      match rest with
      | [] => .error .no_bit_count_after_b
      | value :: rest1 =>
        match parse_u64 value with
        | none => .error .failed_to_parse_bit_count
        | some parsed_bits_per_channel =>
          let bits_per_channel := parsed_bits_per_channel % 2 ^ 32
          if bits_per_channel ≠ 1 ∧ bits_per_channel ≠ 2 ∧ bits_per_channel ≠ 4 then
            .error .invalid_bit_count
          else
            argument_loop parse_u64 rest1 { settings with bits_per_channel := bits_per_channel }
    else if argument = "-e" then
      argument_loop parse_u64 rest { settings with decode := true }
    else .error (.unknown_argument argument)

/-- The collaborators of `tl_main` that are not part of the sources: the parser of the
bit count, the file reader, the image loader (it gives the `width * height * 3` channel
bytes), the allocator of the decode branch and the image writer. -/
structure Host where
  parse_u64 : String → Option Nat
  read_entire_file : String → Option (List Nat)
  stbi_load_from_memory : List Nat → Option (List Nat)
  create_buffer : Nat → List Nat
  stbi_write_bmp : List Nat → Bool

/-- How `tl_main` returns: with `1` after a message, or with `0` after the decode branch
has handed `data` to `write_entire_file`, or with `0` after the encode branch has
written the pixel buffer `pixels` to `output.bmp`. -/
inductive Exit where
  | failed (message : Message)
  | decoded (data : List Nat)
  | encoded (pixels : List Nat)
  deriving DecidableEq, Repr

/-- The function `tl_main` of `main.cpp`, lines 130-256.  The codec is constructed only
inside `decode_branch` and `encode_branch`, with the `bits_per_channel` that the argument
loop has left. -/
def tl_main (host : Host) (fuel : Nat) (arguments : List String) : Outcome Exit :=
  match argument_loop host.parse_u64 (arguments.drop 1) ⟨none, none, 2, false⟩ with
  | .error message => .done (.failed message)
  | .ok settings =>
    match settings.image_path with
    | none => .done (.failed .no_image_path)
    | some image_path =>
      match settings.data_path with
      | none => .done (.failed .no_data_path)
      | some data_path =>
        match host.read_entire_file image_path with
        | none => .done (.failed (.failed_to_read image_path))
        | some image_data =>
          match host.stbi_load_from_memory image_data with
          | none => .done (.failed (.failed_to_load_image image_path))
          | some pixels =>
            if settings.decode then
              match decode_branch fuel pixels settings.bits_per_channel host.create_buffer with
              | .done (some data) => .done (.decoded data)
              | .done none => .done (.failed .failed_to_decode)
              | .fault => .fault
              | .timeout => .timeout
            else
              match host.read_entire_file data_path with
              | none => .done (.failed (.failed_to_read data_path))
              | some data =>
                match encode_branch fuel pixels settings.bits_per_channel data with
                | .done (some pixels1) =>
                  if host.stbi_write_bmp pixels1 then .done (.encoded pixels1)
                  else .done (.failed .failed_to_write_bmp)
                | .done none => .done (.failed .not_enough_space)
                | .fault => .fault
                | .timeout => .timeout

/-- The terms of the reassembly formula for destination byte `j` of a `read` that starts
at channel `k`: for each group `g < 8 / b`, `(channel[k + j * (8 / b) + g] AND m) << (g * b)`.
A channel that does not exist counts as `0`. -/
def shiftedGroups (m b : Nat) (chans : List Nat) (k j : Nat) : List Nat :=
  (List.range (8 / b)).map
    (fun g => (chans.getD (k + j * (8 / b) + g) 0 &&& m) <<< (g * b))

/-- The reassembly formula: the bitwise OR of the terms of `shiftedGroups`. -/
def orOfGroups (m b : Nat) (chans : List Nat) (k j : Nat) : Nat :=
  (shiftedGroups m b chans k j).foldl (fun acc x => acc ||| x) 0

/-- The reassembly formula with a sum in place of the bitwise OR. -/
def sumOfGroups (m b : Nat) (chans : List Nat) (k j : Nat) : Nat :=
  (shiftedGroups m b chans k j).sum

/-- A result of `read` with the channel buffer of its decoder replaced by `channels`:
what two runs over different buffers are compared by. -/
def ReadResult.withChannels (r : ReadResult) (channels : List Nat) : ReadResult :=
  { r with decoder := { r.decoder with channels := channels } }

/-- The outcome of a run with `g` applied to the returned value. -/
def Outcome.map {α β : Type} (g : α → β) : Outcome α → Outcome β
  | .done a => .done (g a)
  | .fault => .fault
  | .timeout => .timeout

theorem putGroups_zero (m b : Nat) (chans : List Nat) (idx rv : Nat) :
    putGroups m b 0 chans idx rv = chans := rfl

theorem putGroups_succ (m b j : Nat) (chans : List Nat) (idx rv : Nat) :
    putGroups m b (j + 1) chans idx rv =
      putGroups m b j (chans.set idx (putLow m (chans.getD idx 0) (rv &&& m))) (idx + 1)
        (rv >>> b) := rfl

theorem putBytes_nil (m b : Nat) (chans : List Nat) (idx : Nat) :
    putBytes m b [] chans idx = chans := rfl

theorem putBytes_cons (m b v : Nat) (rest chans : List Nat) (idx : Nat) :
    putBytes m b (v :: rest) chans idx =
      putBytes m b rest (putGroups m b (8 / b) chans idx v) (idx + 8 / b) := rfl

/-- With `remaining_bits = 0` the loop of `write` is over: it returns the encoder. -/
theorem writeLoop_no_bits (f : Nat) (enc : ImageEncoder) (data : List Nat) (rv rvb : Nat) :
    writeLoop f enc data 0 rv rvb = .done enc := by
  cases f <;> simp [writeLoop]

/-- One iteration of the loop of `write` in the middle of a byte. -/
theorem writeLoop_step_mid (f : Nat) (enc : ImageEncoder) (data : List Nat) (rb rv rvb ch : Nat)
    (hrb : rb ≠ 0) (hrvb : rvb ≠ 0)
    (hch : enc.channels[enc.current_channel_index]? = some ch) :
    writeLoop (f + 1) enc data rb rv rvb =
      writeLoop f
        { enc with
          channels := enc.channels.set enc.current_channel_index
            (putLow enc.mask ch (rv &&& enc.mask))
          current_channel_index := (enc.current_channel_index + 1) % 2 ^ 32 }
        data ((rb + 2 ^ 32 - enc.bits_per_channel) % 2 ^ 32)
        ((rv >>> enc.bits_per_channel) % 256)
        (((rvb + 2 ^ 32 - enc.bits_per_channel) % 2 ^ 32) % 256) := by
  simp [writeLoop, hrb, hrvb, hch]

/-- One iteration of the loop of `write` that loads the next byte of `data`. -/
theorem writeLoop_step_load (f : Nat) (enc : ImageEncoder) (v : Nat) (rest : List Nat)
    (rb rv ch : Nat) (hrb : rb ≠ 0)
    (hch : enc.channels[enc.current_channel_index]? = some ch) :
    writeLoop (f + 1) enc (v :: rest) rb rv 0 =
      writeLoop f
        { enc with
          channels := enc.channels.set enc.current_channel_index
            (putLow enc.mask ch (v &&& enc.mask))
          current_channel_index := (enc.current_channel_index + 1) % 2 ^ 32 }
        rest ((rb + 2 ^ 32 - enc.bits_per_channel) % 2 ^ 32)
        ((v >>> enc.bits_per_channel) % 256)
        (((8 + 2 ^ 32 - enc.bits_per_channel) % 2 ^ 32) % 256) := by
  simp [writeLoop, hrb, hch]

/-- An iteration of the loop of `write` whose channel access is out of range. -/
theorem writeLoop_step_out (f : Nat) (enc : ImageEncoder) (data : List Nat) (rb rv rvb : Nat)
    (hrb : rb ≠ 0)
    (hch : enc.channels[enc.current_channel_index]? = none) :
    writeLoop (f + 1) enc data rb rv rvb = .fault := by
  simp only [writeLoop, hrb, hch, if_false]
  split <;> rfl

theorem shiftRight_lt_256 (v b : Nat) (h : v < 256) : v >>> b < 256 := by
  rw [Nat.shiftRight_eq_div_pow]
  exact Nat.lt_of_le_of_lt (Nat.div_le_self v _) h

/-- The loop of `write`, for `b` bits per channel and `g = 8 / b` groups per byte, from a
state with `j` groups of the current byte and all of `data` still to emit, on a buffer of
fewer than `2 ^ 32` channels: if the groups fit it returns, within one step per group,
the encoder described by `putGroups` and `putBytes`; and whenever it returns, the groups
fit and that encoder is the result. -/
theorem writeLoop_spec (b g : Nat) (hbg : b = 1 ∧ g = 8 ∨ b = 2 ∧ g = 4 ∨ b = 4 ∧ g = 2) :
    ∀ (f : Nat) (chans : List Nat) (idx m av bw : Nat) (data : List Nat) (rb rv rvb j : Nat),
      chans.length < 2 ^ 32 → rv < 256 → (∀ x ∈ data, x < 256) → j < g →
      rvb = b * j → rb = b * j + 8 * data.length → rb < 2 ^ 32 →
      ((j + g * data.length = 0 ∨ idx + (j + g * data.length) ≤ chans.length) →
        j + g * data.length ≤ f →
        writeLoop f ⟨chans, idx, m, b, av, bw⟩ data rb rv rvb
          = .done ⟨putBytes m b data (putGroups m b j chans idx rv) (idx + j),
              idx + (j + g * data.length), m, b, av, bw⟩) ∧
      (∀ e, writeLoop f ⟨chans, idx, m, b, av, bw⟩ data rb rv rvb = .done e →
        (j + g * data.length = 0 ∨ idx + (j + g * data.length) ≤ chans.length) ∧
        e = ⟨putBytes m b data (putGroups m b j chans idx rv) (idx + j),
              idx + (j + g * data.length), m, b, av, bw⟩) := by
  have hb8 : 8 / b = g := by
    rcases hbg with ⟨rfl, rfl⟩ | ⟨rfl, rfl⟩ | ⟨rfl, rfl⟩ <;> rfl
  obtain ⟨g1, hg1⟩ : ∃ g1, g = g1 + 1 := ⟨g - 1, by omega⟩
  subst hg1
  replace hbg : b = 1 ∧ g1 = 7 ∨ b = 2 ∧ g1 = 3 ∨ b = 4 ∧ g1 = 1 := by omega
  intro f
  induction f with
  | zero =>
    intro chans idx m av bw data rb rv rvb j hC hrv hdata hj hrvb hrb hrb32
    have hN : j + (g1 + 1) * data.length = 0 ↔ rb = 0 := by
      rcases hbg with ⟨rfl, rfl⟩ | ⟨rfl, rfl⟩ | ⟨rfl, rfl⟩ <;>
        omega
    constructor
    · intro _ hf
      have h0 : rb = 0 := hN.1 (by omega)
      have hj0 : j = 0 := by omega
      have hd : data = [] := List.eq_nil_of_length_eq_zero (by
        rw [Nat.add_mul] at hf; omega)
      subst hj0; subst hd; subst h0
      simp [writeLoop, putBytes_nil, putGroups_zero]
    · intro e he
      by_cases h0 : rb = 0
      · have h1 := hN.2 h0
        have hj0 : j = 0 := by omega
        have hd : data = [] := List.eq_nil_of_length_eq_zero (by
          rw [Nat.add_mul] at h1; omega)
        subst hj0; subst hd; subst h0
        simp [writeLoop] at he
        simp [putBytes_nil, putGroups_zero, he]
      · simp [writeLoop, h0] at he
  | succ f ih =>
    intro chans idx m av bw data rb rv rvb j hC hrv hdata hj hrvb hrb hrb32
    have hN : j + (g1 + 1) * data.length = 0 ↔ rb = 0 := by
      rcases hbg with ⟨rfl, rfl⟩ | ⟨rfl, rfl⟩ | ⟨rfl, rfl⟩ <;>
        omega
    by_cases h0 : rb = 0
    · have h1 := hN.2 h0
      have hj0 : j = 0 := by omega
      have hd : data = [] := List.eq_nil_of_length_eq_zero (by
        rw [Nat.add_mul] at h1; omega)
      subst hj0; subst hd; subst h0
      simp [writeLoop_no_bits, putBytes_nil, putGroups_zero]
    · have hN0 : j + (g1 + 1) * data.length ≠ 0 := fun h => h0 (hN.1 h)
      by_cases hin : idx < chans.length
      · have hch : chans[idx]? = some (chans.getD idx 0) := by
          simp [List.getD, List.getElem?_eq_getElem hin]
        have hidx : (idx + 1) % 2 ^ 32 = idx + 1 := by omega
        cases j with
        | zero =>
          cases data with
          | nil => simp at hN0
          | cons v rest =>
            have hv : v < 256 := hdata v (List.mem_cons_self _ _)
            have hrest : ∀ x ∈ rest, x < 256 := fun x hx => hdata x (List.mem_cons_of_mem _ hx)
            simp only [List.length_cons] at hrb ⊢
            have hrvb0 : rvb = 0 := by rw [hrvb]; simp
            subst hrvb0
            have h1 := writeLoop_step_load f ⟨chans, idx, m, b, av, bw⟩ v rest rb rv _ h0 hch
            simp only at h1
            rw [h1, hidx, Nat.mod_eq_of_lt (shiftRight_lt_256 v b hv)]
            have ih1 := ih (chans.set idx (putLow m (chans.getD idx 0) (v &&& m))) (idx + 1) m av bw
              rest ((rb + 2 ^ 32 - b) % 2 ^ 32) (v >>> b) (((8 + 2 ^ 32 - b) % 2 ^ 32) % 256) g1
              (by rw [List.length_set]; exact hC)
              (shiftRight_lt_256 v b hv) hrest (by omega)
              (by rcases hbg with ⟨rfl, rfl⟩ | ⟨rfl, rfl⟩ | ⟨rfl, rfl⟩ <;> omega)
              (by rcases hbg with ⟨rfl, rfl⟩ | ⟨rfl, rfl⟩ | ⟨rfl, rfl⟩ <;> omega)
              (by omega)
            simp only [List.length_set] at ih1
            have e9 : idx + 1 + g1 = idx + 0 + (g1 + 1) := by omega
            have e10 : idx + 1 + (g1 + (g1 + 1) * rest.length)
                = idx + (0 + (g1 + 1) * (rest.length + 1)) := by
              rw [Nat.mul_add]; omega
            rw [putBytes_cons, putGroups_zero, hb8, putGroups_succ, ← e9, ← e10]
            constructor
            · intro h2 h3
              refine ih1.1 ?_ ?_
              · right
                rw [e10]
                omega
              · rw [Nat.mul_add] at h3; omega
            · intro e he
              have h3 := ih1.2 e he
              refine ⟨?_, h3.2⟩
              have := h3.1
              right
              rcases this with h | h
              · rcases hbg with ⟨rfl, rfl⟩ | ⟨rfl, rfl⟩ | ⟨rfl, rfl⟩ <;> omega
              · exact h
        | succ j =>
          have h1 := writeLoop_step_mid f ⟨chans, idx, m, b, av, bw⟩ data rb rv rvb _ h0
            (by rcases hbg with ⟨rfl, rfl⟩ | ⟨rfl, rfl⟩ | ⟨rfl, rfl⟩ <;> omega) hch
          simp only at h1
          rw [h1, hidx, Nat.mod_eq_of_lt (shiftRight_lt_256 rv b hrv)]
          have ih1 := ih (chans.set idx (putLow m (chans.getD idx 0) (rv &&& m))) (idx + 1) m av bw
            data ((rb + 2 ^ 32 - b) % 2 ^ 32) (rv >>> b) (((rvb + 2 ^ 32 - b) % 2 ^ 32) % 256) j
            (by rw [List.length_set]; exact hC)
            (shiftRight_lt_256 rv b hrv) hdata (by omega)
            (by rcases hbg with ⟨rfl, rfl⟩ | ⟨rfl, rfl⟩ | ⟨rfl, rfl⟩ <;> omega)
            (by rcases hbg with ⟨rfl, rfl⟩ | ⟨rfl, rfl⟩ | ⟨rfl, rfl⟩ <;> omega)
            (by omega)
          simp only [List.length_set] at ih1
          have e9 : idx + 1 + j = idx + (j + 1) := by omega
          have e10 : idx + 1 + (j + (g1 + 1) * data.length)
              = idx + (j + 1 + (g1 + 1) * data.length) := by omega
          rw [putGroups_succ, ← e9, ← e10]
          constructor
          · intro h2 h3
            refine ih1.1 ?_ ?_
            · right
              rw [e10]
              omega
            · omega
          · intro e he
            have h3 := ih1.2 e he
            refine ⟨?_, h3.2⟩
            have := h3.1
            right
            rcases this with h | h
            · omega
            · exact h
      · have hch : chans[idx]? = none := by
          simp [List.getElem?_eq_none_iff]; omega
        rw [writeLoop_step_out f ⟨chans, idx, m, b, av, bw⟩ data _ rv _ h0 hch]
        constructor
        · intro h1; omega
        · intro e he; cases he


/-- The spec function `putGroups` keeps the length of the buffer. -/
theorem putGroups_length (m b : Nat) :
    ∀ (j : Nat) (chans : List Nat) (idx rv : Nat),
      (putGroups m b j chans idx rv).length = chans.length := by
  intro j
  induction j with
  | zero => intro chans idx rv; rfl
  | succ j ih =>
    intro chans idx rv
    rw [putGroups_succ, ih, List.length_set]

/-- The spec function `putGroups` leaves the channels outside `[idx, idx + j)` alone. -/
theorem putGroups_outside (m b : Nat) :
    ∀ (j : Nat) (chans : List Nat) (idx rv i : Nat), (i < idx ∨ idx + j ≤ i) →
      (putGroups m b j chans idx rv)[i]? = chans[i]? := by
  intro j
  induction j with
  | zero => intro chans idx rv i _; rfl
  | succ j ih =>
    intro chans idx rv i hi
    rw [putGroups_succ, ih _ _ _ _ (by omega), List.getElem?_set_ne (by omega)]

/-- The channel that `putGroups` stores at an index inside `[idx, idx + j)`. -/
theorem putGroups_inside (m b : Nat) :
    ∀ (j : Nat) (chans : List Nat) (idx rv i : Nat), idx ≤ i → i < idx + j →
      i < chans.length →
      (putGroups m b j chans idx rv)[i]?
        = some (putLow m (chans.getD i 0) ((rv >>> ((i - idx) * b)) &&& m)) := by
  intro j
  induction j with
  | zero => intro chans idx rv i h1 h2; omega
  | succ j ih =>
    intro chans idx rv i h1 h2 h3
    rw [putGroups_succ]
    by_cases hi : i = idx
    · subst hi
      rw [putGroups_outside _ _ _ _ _ _ _ (by omega), List.getElem?_set_self h3]
      simp
    · rw [ih _ _ _ _ (by omega) (by omega) (by rw [List.length_set]; exact h3)]
      have e1 : (i - idx) * b = b + (i - (idx + 1)) * b := by
        have : i - idx = (i - (idx + 1)) + 1 := by omega
        rw [this, Nat.add_mul]; omega
      rw [e1, Nat.shiftRight_add]
      simp only [List.getD_eq_getElem?_getD]
      rw [List.getElem?_set_ne (by omega)]

/-- The spec function `putBytes` keeps the length of the buffer. -/
theorem putBytes_length (m b : Nat) :
    ∀ (data chans : List Nat) (idx : Nat),
      (putBytes m b data chans idx).length = chans.length := by
  intro data
  induction data with
  | nil => intro chans idx; rfl
  | cons v rest ih =>
    intro chans idx
    rw [putBytes_cons, ih, putGroups_length]

/-- The spec function `putBytes` leaves the channels outside its range alone. -/
theorem putBytes_outside (m b : Nat) :
    ∀ (data chans : List Nat) (idx i : Nat), (i < idx ∨ idx + 8 / b * data.length ≤ i) →
      (putBytes m b data chans idx)[i]? = chans[i]? := by
  intro data
  induction data with
  | nil => intro chans idx i _; rfl
  | cons v rest ih =>
    intro chans idx i hi
    have e : 8 / b * (v :: rest).length = 8 / b + 8 / b * rest.length := by
      rw [List.length_cons, Nat.mul_add, Nat.mul_one, Nat.add_comm]
    rw [e] at hi
    have h1 : i < idx + 8 / b ∨ idx + 8 / b + 8 / b * rest.length ≤ i := by
      generalize 8 / b = g at hi ⊢
      generalize g * rest.length = t at hi ⊢
      omega
    have h2 : i < idx ∨ idx + 8 / b ≤ i := by
      generalize 8 / b = g at hi ⊢
      generalize g * rest.length = t at hi ⊢
      omega
    rw [putBytes_cons, ih _ _ _ h1, putGroups_outside _ _ _ _ _ _ _ h2]

/-- The channel that `putBytes` stores at an index inside its range: the group
`(i - idx) % (8 / b)` of the byte `(i - idx) / (8 / b)` in the low bits of the old channel. -/
theorem putBytes_inside (m b : Nat) (hb : b = 1 ∨ b = 2 ∨ b = 4) :
    ∀ (data chans : List Nat) (idx i : Nat), idx ≤ i → i < idx + 8 / b * data.length →
      i < chans.length →
      (putBytes m b data chans idx)[i]?
        = some (putLow m (chans.getD i 0)
            ((data.getD ((i - idx) / (8 / b)) 0 >>> ((i - idx) % (8 / b) * b)) &&& m)) := by
  intro data
  induction data with
  | nil => intro chans idx i h1 h2; simp at h2; omega
  | cons v rest ih =>
    intro chans idx i h1 h2 h3
    have e : 8 / b * (v :: rest).length = 8 / b + 8 / b * rest.length := by
      rw [List.length_cons, Nat.mul_add, Nat.mul_one, Nat.add_comm]
    rw [e] at h2
    rw [putBytes_cons]
    have hg : 0 < 8 / b := by rcases hb with rfl | rfl | rfl <;> norm_num
    set g := 8 / b with hgdef
    by_cases hi : i < idx + g
    · rw [putBytes_outside m b rest _ _ _ (Or.inl hi),
        putGroups_inside _ _ _ _ _ _ _ h1 hi h3]
      have e1 : (i - idx) / g = 0 := Nat.div_eq_of_lt (by omega)
      have e2 : (i - idx) % g = i - idx := Nat.mod_eq_of_lt (by omega)
      rw [e1, e2]
      simp
    · have h4 : i < idx + g + g * rest.length := by
        generalize g * rest.length = t at h2 ⊢
        omega
      rw [ih _ _ _ (by omega) h4 (by rw [putGroups_length]; exact h3)]
      have e0 : i - idx = (i - (idx + g)) + g := by omega
      have e1 : (i - idx) / g = (i - (idx + g)) / g + 1 := by
        rw [e0, Nat.add_div_right _ hg]
      have e2 : (i - idx) % g = (i - (idx + g)) % g := by
        rw [e0, Nat.add_mod_right]
      rw [e1, e2]
      simp only [List.getD_eq_getElem?_getD, List.getElem?_cons_succ]
      rw [putGroups_outside _ _ _ _ _ _ _ (by omega)]


theorem groups_cases (b : Nat) (hb : b = 1 ∨ b = 2 ∨ b = 4) :
    b = 1 ∧ 8 / b = 8 ∨ b = 2 ∧ 8 / b = 4 ∨ b = 4 ∧ 8 / b = 2 := by
  rcases hb with rfl | rfl | rfl <;> simp

/-- The loop of `write` ends (returns or faults) within one step per group to emit. -/
theorem writeLoop_within (b g : Nat) (hbg : b = 1 ∧ g = 8 ∨ b = 2 ∧ g = 4 ∨ b = 4 ∧ g = 2) :
    ∀ (f : Nat) (chans : List Nat) (idx m av bw : Nat) (data : List Nat) (rb rv rvb j : Nat),
      chans.length < 2 ^ 32 → j < g → rvb = b * j → rb = b * j + 8 * data.length →
      rb < 2 ^ 32 → j + g * data.length ≤ f →
      writeLoop f ⟨chans, idx, m, b, av, bw⟩ data rb rv rvb ≠ .timeout := by
  intro f
  induction f with
  | zero =>
    intro chans idx m av bw data rb rv rvb j hC hj hrvb hrb hrb32 hf
    have h0 : rb = 0 := by
      have h1 : data.length = 0 := by
        rcases hbg with ⟨rfl, rfl⟩ | ⟨rfl, rfl⟩ | ⟨rfl, rfl⟩ <;> omega
      have h2 : j = 0 := by omega
      rw [hrb, h1, h2, Nat.mul_zero, Nat.mul_zero]
    subst h0
    simp [writeLoop]
  | succ f ih =>
    intro chans idx m av bw data rb rv rvb j hC hj hrvb hrb hrb32 hf
    by_cases h0 : rb = 0
    · subst h0
      simp [writeLoop_no_bits]
    · by_cases hin : idx < chans.length
      · have hch : chans[idx]? = some (chans.getD idx 0) := by
          simp [List.getD, List.getElem?_eq_getElem hin]
        cases j with
        | zero =>
          cases data with
          | nil => simp at hrb; omega
          | cons v rest =>
            simp only [List.length_cons] at hrb hf
            have hrvb0 : rvb = 0 := by rw [hrvb]; simp
            subst hrvb0
            rw [writeLoop_step_load f ⟨chans, idx, m, b, av, bw⟩ v rest rb rv _ h0 hch]
            dsimp only
            refine ih _ _ m av bw rest _ _ _ (g - 1) (by rw [List.length_set]; exact hC)
              (by omega) ?_ ?_ (by omega) ?_
            all_goals rcases hbg with ⟨rfl, rfl⟩ | ⟨rfl, rfl⟩ | ⟨rfl, rfl⟩ <;> omega
        | succ j =>
          rw [writeLoop_step_mid f ⟨chans, idx, m, b, av, bw⟩ data rb rv rvb _ h0
            (by rcases hbg with ⟨rfl, rfl⟩ | ⟨rfl, rfl⟩ | ⟨rfl, rfl⟩ <;> omega) hch]
          dsimp only
          refine ih _ _ m av bw data _ _ _ j (by rw [List.length_set]; exact hC)
            (by omega) ?_ ?_ (by omega) ?_
          all_goals rcases hbg with ⟨rfl, rfl⟩ | ⟨rfl, rfl⟩ | ⟨rfl, rfl⟩ <;> omega
      · have hch : chans[idx]? = none := by
          simp [List.getElem?_eq_none_iff]; omega
        rw [writeLoop_step_out f ⟨chans, idx, m, b, av, bw⟩ data _ rv _ h0 hch]
        intro h; cases h

/-- The loop of `write` looks only at the first `n` bytes of `data` when
`remaining_bits` counts `n` bytes. -/
theorem writeLoop_take (b g : Nat) (hbg : b = 1 ∧ g = 8 ∨ b = 2 ∧ g = 4 ∨ b = 4 ∧ g = 2) :
    ∀ (f : Nat) (enc : ImageEncoder) (data : List Nat) (rb rv rvb j n : Nat),
      enc.bits_per_channel = b → j < g → rvb = b * j → rb = b * j + 8 * n →
      n ≤ data.length → rb < 2 ^ 32 →
      writeLoop f enc data rb rv rvb = writeLoop f enc (data.take n) rb rv rvb := by
  intro f
  induction f with
  | zero =>
    intro enc data rb rv rvb j n hb hj hrvb hrb hn hrb32
    simp [writeLoop]
  | succ f ih =>
    intro enc data rb rv rvb j n hb hj hrvb hrb hn hrb32
    by_cases h0 : rb = 0
    · subst h0
      simp [writeLoop_no_bits]
    · cases hch : enc.channels[enc.current_channel_index]? with
      | none =>
        rw [writeLoop_step_out f enc data _ rv _ h0 hch,
          writeLoop_step_out f enc (data.take n) _ rv _ h0 hch]
      | some ch =>
        cases j with
        | zero =>
          have hrvb0 : rvb = 0 := by rw [hrvb]; simp
          subst hrvb0
          cases n with
          | zero => simp at hrb; omega
          | succ n =>
            cases data with
            | nil => simp at hn
            | cons v rest =>
              simp only [List.length_cons] at hn
              rw [List.take_succ_cons,
                writeLoop_step_load f enc v rest rb rv _ h0 hch,
                writeLoop_step_load f enc v (rest.take n) rb rv _ h0 hch]
              refine ih _ rest _ _ _ (g - 1) n hb (by omega) ?_ ?_ (by omega) (by omega)
              all_goals (rw [hb]; rcases hbg with ⟨rfl, rfl⟩ | ⟨rfl, rfl⟩ | ⟨rfl, rfl⟩ <;> omega)
        | succ j =>
          have hrvb1 : rvb ≠ 0 := by
            rcases hbg with ⟨rfl, rfl⟩ | ⟨rfl, rfl⟩ | ⟨rfl, rfl⟩ <;> omega
          rw [writeLoop_step_mid f enc data rb rv rvb _ h0 hrvb1 hch,
            writeLoop_step_mid f enc (data.take n) rb rv rvb _ h0 hrvb1 hch]
          refine ih _ data _ _ _ j n hb (by omega) ?_ ?_ hn (by omega)
          all_goals (rw [hb]; rcases hbg with ⟨rfl, rfl⟩ | ⟨rfl, rfl⟩ | ⟨rfl, rfl⟩ <;> omega)


/-- The failure path of `write`: the capacity check of line 49 fires. -/
theorem write_exceeded (f : Nat) (enc : ImageEncoder) (data : List Nat)
    (h : enc.available_bits < (enc.bits_written + data.length * 8) % 2 ^ 32) :
    write f enc data =
      .done (false, { enc with bits_written := (enc.bits_written + data.length * 8) % 2 ^ 32 }) := by
  simp only [write, gt_iff_lt]
  rw [if_pos h]

/-- Whenever `write` returns `false`, the capacity check fired and only `bits_written`
changed. -/
theorem write_false (f : Nat) (enc : ImageEncoder) (data : List Nat) (e : ImageEncoder)
    (h : write f enc data = .done (false, e)) :
    enc.available_bits < (enc.bits_written + data.length * 8) % 2 ^ 32 ∧
      e = { enc with bits_written := (enc.bits_written + data.length * 8) % 2 ^ 32 } := by
  by_cases hc : enc.available_bits < (enc.bits_written + data.length * 8) % 2 ^ 32
  · rw [write_exceeded f enc data hc] at h
    refine ⟨hc, ?_⟩
    cases h
    rfl
  · exfalso
    simp only [write, gt_iff_lt, hc, if_false] at h
    split at h <;> cases h

/-- The path of `write` past the capacity check, on a buffer of fewer than `2 ^ 32`
channels: it returns `true` with `writeResult` when the groups fit, it returns nothing
else, and it ends within one step per group. -/
theorem write_accepted (b : Nat) (hb : b = 1 ∨ b = 2 ∨ b = 4) (f : Nat) (enc : ImageEncoder)
    (data : List Nat) (hbe : enc.bits_per_channel = b) (hC : enc.channels.length < 2 ^ 32)
    (hdata : ∀ x ∈ data, x < 256)
    (hcap : ¬ enc.available_bits < (enc.bits_written + data.length * 8) % 2 ^ 32) :
    ((data.length % 2 ^ 29 = 0 ∨
        enc.current_channel_index + 8 / b * (data.length % 2 ^ 29) ≤ enc.channels.length) →
      8 / b * (data.length % 2 ^ 29) ≤ f →
      write f enc data = .done (true, writeResult enc data)) ∧
    (∀ ok e, write f enc data = .done (ok, e) →
      ok = true ∧
      (data.length % 2 ^ 29 = 0 ∨
        enc.current_channel_index + 8 / b * (data.length % 2 ^ 29) ≤ enc.channels.length) ∧
      e = writeResult enc data) ∧
    (8 / b * (data.length % 2 ^ 29) ≤ f → write f enc data ≠ .timeout) := by
  have hbg := groups_cases b hb
  rcases enc with ⟨chans, idx, m, b', av, bw⟩
  simp only at hbe hC hcap
  subst hbe
  set n := data.length % 2 ^ 29 with hn
  have hnlen : (data.take n).length = n := by
    rw [List.length_take]; omega
  have hrb : data.length * 8 % 2 ^ 32 = b' * 0 + 8 * n := by omega
  have hlt : b' * 0 + 8 * n < 2 ^ 32 := by omega
  have htake := writeLoop_take b' (8 / b') (by omega) f
    ⟨chans, idx, m, b', av, (bw + data.length * 8) % 2 ^ 32⟩ data (b' * 0 + 8 * n) 0 0 0 n rfl
    (by omega) (by simp) rfl (by omega) hlt
  have hspec := writeLoop_spec b' (8 / b') (by omega) f chans idx m av
    ((bw + data.length * 8) % 2 ^ 32) (data.take n) (b' * 0 + 8 * n) 0 0 0 hC (by norm_num)
    (fun x hx => hdata x (List.mem_of_mem_take hx)) (by omega) (by simp)
    (by rw [hnlen]) hlt
  have hwithin := writeLoop_within b' (8 / b') (by omega) f chans idx m av
    ((bw + data.length * 8) % 2 ^ 32) (data.take n) (b' * 0 + 8 * n) 0 0 0 hC (by omega)
    (by simp) (by rw [hnlen]) hlt
  rw [hnlen] at hspec hwithin
  simp only [Nat.zero_add, putGroups_zero, Nat.add_zero] at hspec hwithin
  simp only [write, gt_iff_lt, hcap, if_false, hrb, htake, writeResult]
  refine ⟨?_, ?_, ?_⟩
  · intro h1 h2
    have h3 : n = 0 ∨ idx + 8 / b' * n ≤ chans.length := h1
    rw [hspec.1 (by
      rcases h3 with h | h
      · left; rw [h, Nat.mul_zero]
      · right; exact h) h2]
  · intro ok e h
    split at h
    · rename_i e2 he2
      have h4 := hspec.2 e2 he2
      cases h
      refine ⟨rfl, ?_, h4.2⟩
      rcases h4.1 with h | h
      · left
        rcases hbg with ⟨rfl, h8⟩ | ⟨rfl, h8⟩ | ⟨rfl, h8⟩ <;> (rw [h8] at h; omega)
      · right; exact h
    · cases h
    · cases h
  · intro h2 h
    split at h
    · cases h
    · cases h
    · rename_i he
      exact hwithin h2 he


theorem groups_mul (b : Nat) (hb : b = 1 ∨ b = 2 ∨ b = 4) (n : Nat) :
    b * (8 / b * n) = 8 * n := by
  rcases hb with rfl | rfl | rfl <;> omega

theorem writeResult_small (enc : ImageEncoder) (data : List Nat)
    (h : data.length * 8 < 2 ^ 32) :
    writeResult enc data =
      { enc with
        channels := putBytes enc.mask enc.bits_per_channel data enc.channels
          enc.current_channel_index
        current_channel_index :=
          enc.current_channel_index + 8 / enc.bits_per_channel * data.length
        bits_written := (enc.bits_written + data.length * 8) % 2 ^ 32 } := by
  have h1 : data.length % 2 ^ 29 = data.length := Nat.mod_eq_of_lt (by omega)
  simp only [writeResult, h1, List.take_length]


theorem getGroups_zero (m b : Nat) (chans : List Nat) (idx acc bits : Nat) :
    getGroups m b 0 chans idx acc bits = acc := rfl

theorem getGroups_succ (m b j : Nat) (chans : List Nat) (idx acc bits : Nat) :
    getGroups m b (j + 1) chans idx acc bits =
      getGroups m b j chans (idx + 1) ((acc ||| ((chans.getD idx 0 &&& m) <<< bits)) % 256)
        (bits + b) := rfl

theorem getBytes_zero (m b : Nat) (chans : List Nat) (idx : Nat) :
    getBytes m b 0 chans idx = [] := rfl

theorem getBytes_succ (m b n : Nat) (chans : List Nat) (idx : Nat) :
    getBytes m b (n + 1) chans idx =
      getGroups m b (8 / b) chans idx 0 0 :: getBytes m b n chans (idx + 8 / b) := rfl

theorem getBytes_length (m b : Nat) :
    ∀ (n : Nat) (chans : List Nat) (idx : Nat), (getBytes m b n chans idx).length = n := by
  intro n
  induction n with
  | zero => intro chans idx; rfl
  | succ n ih => intro chans idx; rw [getBytes_succ, List.length_cons, ih]

theorem take_set_same (l : List Nat) (n v : Nat) : (l.set n v).take n = l.take n := by
  apply List.ext_getElem?
  intro i
  rw [List.getElem?_take, List.getElem?_take]
  split
  · rw [List.getElem?_set_ne (by omega)]
  · rfl

theorem take_succ_set (l : List Nat) (n v : Nat) (h : n < l.length) :
    (l.set n v).take (n + 1) = l.take n ++ [v] := by
  rw [List.take_succ, take_set_same, List.getElem?_set_self h]
  rfl

/-- An iteration of the loop of `read` at the end of the channel buffer. -/
theorem readLoop_step_end (f : Nat) (dec : ImageDecoder) (dst : List Nat) (ovr : Bool)
    (di bits : Nat) (h : dec.current_channel_index = dec.channels.length) :
    readLoop (f + 1) dec dst ovr di bits = .done ⟨false, dec, dst, ovr⟩ := by
  simp [readLoop, h]

/-- An iteration of the loop of `read` whose channel access is out of range. -/
theorem readLoop_step_out (f : Nat) (dec : ImageDecoder) (dst : List Nat) (ovr : Bool)
    (di bits : Nat) (h : dec.current_channel_index ≠ dec.channels.length)
    (hch : dec.channels[dec.current_channel_index]? = none) :
    readLoop (f + 1) dec dst ovr di bits = .fault := by
  simp [readLoop, h, hch]

/-- One iteration of the loop of `read` that reads a channel. -/
theorem readLoop_step (f : Nat) (dec : ImageDecoder) (dst : List Nat) (ovr : Bool)
    (di bits ch : Nat) (h : dec.current_channel_index ≠ dec.channels.length)
    (hch : dec.channels[dec.current_channel_index]? = some ch) :
    readLoop (f + 1) dec dst ovr di bits =
      if (bits + dec.bits_per_channel) % 256 = 8 then
        if di + 1 = dst.length then
          .done ⟨true, { dec with current_channel_index := (dec.current_channel_index + 1) % 2 ^ 32 },
            (storeDest dst ovr di ((loadDest dst di ||| ((ch &&& dec.mask) <<< bits)) % 256)).1,
            (storeDest dst ovr di ((loadDest dst di ||| ((ch &&& dec.mask) <<< bits)) % 256)).2⟩
        else
          readLoop f { dec with current_channel_index := (dec.current_channel_index + 1) % 2 ^ 32 }
            (storeDest
              (storeDest dst ovr di ((loadDest dst di ||| ((ch &&& dec.mask) <<< bits)) % 256)).1
              (storeDest dst ovr di ((loadDest dst di ||| ((ch &&& dec.mask) <<< bits)) % 256)).2
              (di + 1) 0).1
            (storeDest
              (storeDest dst ovr di ((loadDest dst di ||| ((ch &&& dec.mask) <<< bits)) % 256)).1
              (storeDest dst ovr di ((loadDest dst di ||| ((ch &&& dec.mask) <<< bits)) % 256)).2
              (di + 1) 0).2
            (di + 1) 0
      else
        readLoop f { dec with current_channel_index := (dec.current_channel_index + 1) % 2 ^ 32 }
          (storeDest dst ovr di ((loadDest dst di ||| ((ch &&& dec.mask) <<< bits)) % 256)).1
          (storeDest dst ovr di ((loadDest dst di ||| ((ch &&& dec.mask) <<< bits)) % 256)).2
          di ((bits + dec.bits_per_channel) % 256) := by
  simp [readLoop, h, hch]

theorem storeDest_inside (dst : List Nat) (ovr : Bool) (di v : Nat) (h : di < dst.length) :
    storeDest dst ovr di v = (dst.set di v, ovr) := by
  simp [storeDest, h]

/-- A result of the loop of `read` does not depend on the step budget: one more step
gives the same result. -/
theorem readLoop_mono :
    ∀ (f : Nat) (dec : ImageDecoder) (dst : List Nat) (ovr : Bool) (di bits : Nat)
      (r : ReadResult),
      readLoop f dec dst ovr di bits = .done r → readLoop (f + 1) dec dst ovr di bits = .done r := by
  intro f
  induction f with
  | zero => intro dec dst ovr di bits r h; simp [readLoop] at h
  | succ f ih =>
    intro dec dst ovr di bits r h
    by_cases hend : dec.current_channel_index = dec.channels.length
    · rw [readLoop_step_end _ _ _ _ _ _ hend] at h ⊢
      exact h
    · cases hch : dec.channels[dec.current_channel_index]? with
      | none =>
        rw [readLoop_step_out _ _ _ _ _ _ hend hch] at h
        cases h
      | some ch =>
        rw [readLoop_step _ _ _ _ _ _ _ hend hch] at h ⊢
        split at h
        · rw [if_pos (by assumption)]
          split at h
          · rw [if_pos (by assumption)]; exact h
          · rw [if_neg (by assumption)]; exact ih _ _ _ _ _ _ h
        · rw [if_neg (by assumption)]; exact ih _ _ _ _ _ _ h

theorem readLoop_mono_add (f d : Nat) (dec : ImageDecoder) (dst : List Nat) (ovr : Bool)
    (di bits : Nat) (r : ReadResult) (h : readLoop f dec dst ovr di bits = .done r) :
    readLoop (f + d) dec dst ovr di bits = .done r := by
  induction d with
  | zero => exact h
  | succ d ih => exact readLoop_mono _ _ _ _ _ _ _ ih


/-- The loop of `read` from a state inside byte `di` with `t` groups already read, on a
buffer of fewer than `2 ^ 32` channels that holds all the groups still needed: it returns
success, with the bytes described by `getGroups` and `getBytes`. -/
theorem readLoop_fits (b g : Nat) (hbg : b = 1 ∧ g = 8 ∨ b = 2 ∧ g = 4 ∨ b = 4 ∧ g = 2) :
    ∀ (f : Nat) (chans : List Nat) (idx m : Nat) (dst : List Nat) (ovr : Bool)
      (di bits t : Nat),
      chans.length < 2 ^ 32 → di < dst.length → t < g → bits = b * t →
      idx + ((g - t) + g * (dst.length - di - 1)) ≤ chans.length →
      (g - t) + g * (dst.length - di - 1) ≤ f →
      readLoop f ⟨chans, idx, m, b⟩ dst ovr di bits =
        .done ⟨true, ⟨chans, idx + ((g - t) + g * (dst.length - di - 1)), m, b⟩,
          dst.take di ++ getGroups m b (g - t) chans idx (dst.getD di 0) bits ::
            getBytes m b (dst.length - di - 1) chans (idx + (g - t)), ovr⟩ := by
  have hb8 : 8 / b = g := by
    rcases hbg with ⟨rfl, rfl⟩ | ⟨rfl, rfl⟩ | ⟨rfl, rfl⟩ <;> rfl
  intro f
  induction f with
  | zero =>
    intro chans idx m dst ovr di bits t hC hdi ht hbits hfit hf
    omega
  | succ f ih =>
    intro chans idx m dst ovr di bits t hC hdi ht hbits hfit hf
    have hin : idx < chans.length := by omega
    have hch : chans[idx]? = some (chans.getD idx 0) := by
      simp [List.getD, List.getElem?_eq_getElem hin]
    have hidx : (idx + 1) % 2 ^ 32 = idx + 1 := by omega
    rw [readLoop_step f ⟨chans, idx, m, b⟩ dst ovr di bits _ (by simp; omega) hch]
    simp only [hidx, storeDest_inside dst ovr di _ hdi, loadDest]
    obtain ⟨k, hk⟩ : ∃ k, g - t = k + 1 := ⟨g - t - 1, by omega⟩
    rw [hk, getGroups_succ]
    by_cases h8 : t + 1 = g
    · have hb1 : (bits + b) % 256 = 8 := by
        rcases hbg with ⟨rfl, rfl⟩ | ⟨rfl, rfl⟩ | ⟨rfl, rfl⟩ <;> omega
      have hk0 : k = 0 := by omega
      subst hk0
      rw [if_pos hb1, getGroups_zero]
      by_cases hlast : di + 1 = dst.length
      · rw [if_pos hlast]
        have e1 : dst.length - di - 1 = 0 := by omega
        rw [e1, getBytes_zero, Nat.mul_zero, Nat.add_zero]
        have e2 : dst.set di ((dst.getD di 0 ||| (chans.getD idx 0 &&& m) <<< bits) % 256)
            = dst.take di ++ [(dst.getD di 0 ||| (chans.getD idx 0 &&& m) <<< bits) % 256] := by
          rw [← take_succ_set dst di _ hdi, List.take_of_length_le]
          rw [List.length_set]; omega
        rw [e2]
      · rw [if_neg hlast]
        have hdi1 : di + 1 < (dst.set di
            ((dst.getD di 0 ||| (chans.getD idx 0 &&& m) <<< bits) % 256)).length := by
          rw [List.length_set]; omega
        rw [storeDest_inside _ ovr (di + 1) 0 hdi1]
        simp only
        obtain ⟨n, hn⟩ : ∃ n, dst.length - di - 1 = n + 1 := ⟨dst.length - di - 2, by omega⟩
        have ih1 := ih chans (idx + 1) m
          ((dst.set di ((dst.getD di 0 ||| (chans.getD idx 0 &&& m) <<< bits) % 256)).set
            (di + 1) 0) ovr (di + 1) 0 0 hC
          (by rw [List.length_set]; exact hdi1) (by omega)
          (by simp)
          (by
            simp only [List.length_set]
            have : dst.length - (di + 1) - 1 = n := by omega
            rw [this]; rw [hn, Nat.mul_add] at hfit; omega)
          (by
            simp only [List.length_set]
            have : dst.length - (di + 1) - 1 = n := by omega
            rw [this]; rw [hn, Nat.mul_add] at hf; omega)
        rw [ih1]
        simp only [List.length_set]
        have e3 : dst.length - (di + 1) - 1 = n := by omega
        rw [e3, hn, getBytes_succ, hb8]
        have e4 : (((dst.set di ((dst.getD di 0 ||| (chans.getD idx 0 &&& m) <<< bits) % 256)).set
            (di + 1) 0).getD (di + 1) 0) = 0 := by
          simp only [List.getD_eq_getElem?_getD]
          rw [List.getElem?_set_self (by rw [List.length_set]; omega)]
          rfl
        have e5 : ((dst.set di ((dst.getD di 0 ||| (chans.getD idx 0 &&& m) <<< bits) % 256)).set
            (di + 1) 0).take (di + 1)
            = dst.take di ++ [(dst.getD di 0 ||| (chans.getD idx 0 &&& m) <<< bits) % 256] := by
          rw [take_set_same, take_succ_set _ _ _ hdi]
        rw [e4, e5]
        have e6 : idx + 1 + (g - 0 + g * n) = idx + (0 + 1 + g * (n + 1)) := by
          rw [Nat.mul_add]; omega
        have e7 : idx + 1 + (g - 0) = idx + (0 + 1) + g := by omega
        rw [e6, e7, Nat.sub_zero]
        simp
    · have hb1 : ¬ (bits + b) % 256 = 8 := by
        rcases hbg with ⟨rfl, rfl⟩ | ⟨rfl, rfl⟩ | ⟨rfl, rfl⟩ <;> omega
      have hb2 : (bits + b) % 256 = b * (t + 1) := by
        rcases hbg with ⟨rfl, rfl⟩ | ⟨rfl, rfl⟩ | ⟨rfl, rfl⟩ <;> omega
      rw [if_neg hb1]
      have hdi1 : di < (dst.set di
          ((dst.getD di 0 ||| (chans.getD idx 0 &&& m) <<< bits) % 256)).length := by
        rw [List.length_set]; exact hdi
      have ih1 := ih chans (idx + 1) m
        (dst.set di ((dst.getD di 0 ||| (chans.getD idx 0 &&& m) <<< bits) % 256))
        ovr di ((bits + b) % 256) (t + 1) hC hdi1 (by omega) hb2
        (by simp only [List.length_set]; omega)
        (by simp only [List.length_set]; omega)
      rw [ih1]
      simp only [List.length_set]
      have e3 : g - (t + 1) = k := by omega
      have e4 : (dst.set di ((dst.getD di 0 ||| (chans.getD idx 0 &&& m) <<< bits) % 256)).getD di 0
          = (dst.getD di 0 ||| (chans.getD idx 0 &&& m) <<< bits) % 256 := by
        simp only [List.getD_eq_getElem?_getD]
        rw [List.getElem?_set_self hdi]
        rfl
      have e5 : (bits + b) % 256 = bits + b := by
        rcases hbg with ⟨rfl, rfl⟩ | ⟨rfl, rfl⟩ | ⟨rfl, rfl⟩ <;> omega
      rw [e3, e4, take_set_same, e5]
      have e6 : idx + 1 + (k + g * (dst.length - di - 1))
          = idx + (k + 1 + g * (dst.length - di - 1)) := by omega
      have e7 : idx + 1 + k = idx + (k + 1) := by omega
      rw [e6, e7]

/-- The loop of `read` on a buffer of fewer than `2 ^ 32` channels that does not hold
all the groups still needed: it returns failure with the cursor at the end. -/
theorem readLoop_exhaust (b g : Nat) (hbg : b = 1 ∧ g = 8 ∨ b = 2 ∧ g = 4 ∨ b = 4 ∧ g = 2) :
    ∀ (f : Nat) (chans : List Nat) (idx m : Nat) (dst : List Nat) (ovr : Bool)
      (di bits t : Nat),
      chans.length < 2 ^ 32 → di < dst.length → t < g → bits = b * t →
      idx ≤ chans.length →
      chans.length < idx + ((g - t) + g * (dst.length - di - 1)) →
      chans.length - idx < f →
      ∃ d, readLoop f ⟨chans, idx, m, b⟩ dst ovr di bits =
          .done ⟨false, ⟨chans, chans.length, m, b⟩, d, ovr⟩ ∧ d.length = dst.length := by
  intro f
  induction f with
  | zero =>
    intro chans idx m dst ovr di bits t hC hdi ht hbits hidx hfit hf
    omega
  | succ f ih =>
    intro chans idx m dst ovr di bits t hC hdi ht hbits hle hfit hf
    by_cases hend : idx = chans.length
    · refine ⟨dst, ?_, rfl⟩
      rw [readLoop_step_end f ⟨chans, idx, m, b⟩ dst ovr di bits hend, hend]
    · have hin : idx < chans.length := by omega
      have hch : chans[idx]? = some (chans.getD idx 0) := by
        simp [List.getD, List.getElem?_eq_getElem hin]
      have hidx : (idx + 1) % 2 ^ 32 = idx + 1 := by omega
      rw [readLoop_step f ⟨chans, idx, m, b⟩ dst ovr di bits _ hend hch]
      simp only [hidx, storeDest_inside dst ovr di _ hdi, loadDest]
      by_cases h8 : t + 1 = g
      · have hb1 : (bits + b) % 256 = 8 := by
          rcases hbg with ⟨rfl, rfl⟩ | ⟨rfl, rfl⟩ | ⟨rfl, rfl⟩ <;> omega
        rw [if_pos hb1]
        have hlast : ¬ di + 1 = dst.length := by
          intro h
          have : dst.length - di - 1 = 0 := by omega
          rw [this] at hfit
          omega
        rw [if_neg hlast]
        have hdi1 : di + 1 < (dst.set di
            ((dst.getD di 0 ||| (chans.getD idx 0 &&& m) <<< bits) % 256)).length := by
          rw [List.length_set]; omega
        rw [storeDest_inside _ ovr (di + 1) 0 hdi1]
        simp only
        obtain ⟨n, hn⟩ : ∃ n, dst.length - di - 1 = n + 1 := ⟨dst.length - di - 2, by omega⟩
        obtain ⟨d, hd, hlen⟩ := ih chans (idx + 1) m
          ((dst.set di ((dst.getD di 0 ||| (chans.getD idx 0 &&& m) <<< bits) % 256)).set
            (di + 1) 0) ovr (di + 1) 0 0 hC
          (by rw [List.length_set]; exact hdi1) (by omega) (by simp) (by omega)
          (by
            simp only [List.length_set]
            have : dst.length - (di + 1) - 1 = n := by omega
            rw [this]; rw [hn, Nat.mul_add] at hfit; omega)
          (by omega)
        exact ⟨d, hd, by rw [hlen]; simp⟩
      · have hb1 : ¬ (bits + b) % 256 = 8 := by
          rcases hbg with ⟨rfl, rfl⟩ | ⟨rfl, rfl⟩ | ⟨rfl, rfl⟩ <;> omega
        have hb2 : (bits + b) % 256 = b * (t + 1) := by
          rcases hbg with ⟨rfl, rfl⟩ | ⟨rfl, rfl⟩ | ⟨rfl, rfl⟩ <;> omega
        rw [if_neg hb1]
        have hdi1 : di < (dst.set di
            ((dst.getD di 0 ||| (chans.getD idx 0 &&& m) <<< bits) % 256)).length := by
          rw [List.length_set]; exact hdi
        obtain ⟨d, hd, hlen⟩ := ih chans (idx + 1) m
          (dst.set di ((dst.getD di 0 ||| (chans.getD idx 0 &&& m) <<< bits) % 256))
          ovr di ((bits + b) % 256) (t + 1) hC hdi1 (by omega) hb2 (by omega)
          (by simp only [List.length_set]; omega)
          (by omega)
        exact ⟨d, hd, by rw [hlen]; simp⟩


/-- Once `dest_byte` is at or past the end of the destination, the loop of `read` never
returns success. -/
theorem readLoop_beyond :
    ∀ (f : Nat) (dec : ImageDecoder) (dst : List Nat) (ovr : Bool) (di bits : Nat)
      (r : ReadResult), dst.length ≤ di →
      readLoop f dec dst ovr di bits = .done r → r.ok = false := by
  intro f
  induction f with
  | zero => intro dec dst ovr di bits r _ h; simp [readLoop] at h
  | succ f ih =>
    intro dec dst ovr di bits r hdi h
    by_cases hend : dec.current_channel_index = dec.channels.length
    · rw [readLoop_step_end _ _ _ _ _ _ hend] at h
      cases h; rfl
    · cases hch : dec.channels[dec.current_channel_index]? with
      | none =>
        rw [readLoop_step_out _ _ _ _ _ _ hend hch] at h
        cases h
      | some ch =>
        rw [readLoop_step _ _ _ _ _ _ _ hend hch] at h
        have hs : ∀ v, (storeDest dst ovr di v).1 = dst := by
          intro v; simp only [storeDest]; rw [if_neg (by omega)]
        simp only [hs] at h
        split at h
        · rw [if_neg (by omega)] at h
          have hs2 : ∀ o v, (storeDest dst o (di + 1) v).1 = dst := by
            intro o v; simp only [storeDest]; rw [if_neg (by omega)]
          simp only [hs2] at h
          exact ih _ _ _ _ _ _ (by omega) h
        · exact ih _ _ _ _ _ _ hdi h

/-- A `read` into an empty destination never returns success. -/
theorem read_empty (f : Nat) (dec : ImageDecoder) (r : ReadResult)
    (h : read f dec [] = .done r) : r.ok = false := by
  unfold read at h
  exact readLoop_beyond f dec _ _ 0 0 r (by simp [storeDest]) h

theorem read_mono_add (f d : Nat) (dec : ImageDecoder) (dst : List Nat) (r : ReadResult)
    (h : read f dec dst = .done r) : read (f + d) dec dst = .done r := by
  unfold read at h ⊢
  exact readLoop_mono_add f d dec _ _ 0 0 r h

/-- A `read` of `n ≥ 1` bytes whose channels are all there returns success. -/
theorem read_fits (b : Nat) (hb : b = 1 ∨ b = 2 ∨ b = 4) (f : Nat) (dec : ImageDecoder)
    (dst : List Nat) (hbe : dec.bits_per_channel = b) (hC : dec.channels.length < 2 ^ 32)
    (hn : 0 < dst.length)
    (hfit : dec.current_channel_index + 8 / b * dst.length ≤ dec.channels.length)
    (hf : 8 / b * dst.length ≤ f) :
    read f dec dst =
      .done ⟨true,
        { dec with current_channel_index := dec.current_channel_index + 8 / b * dst.length },
        getBytes dec.mask b dst.length dec.channels dec.current_channel_index, false⟩ := by
  have hbg := groups_cases b hb
  have hg : 0 < 8 / b := by omega
  rcases dec with ⟨chans, idx, m, b'⟩
  simp only at hbe hC hfit ⊢
  subst hbe
  obtain ⟨n, hlen⟩ : ∃ n, dst.length = n + 1 := ⟨dst.length - 1, by omega⟩
  have hN : 8 / b' - 0 + 8 / b' * ((dst.set 0 0).length - 0 - 1) = 8 / b' * dst.length := by
    rw [List.length_set, hlen, Nat.mul_add]; simp; omega
  have h := readLoop_fits b' (8 / b') (by omega) f chans idx m (dst.set 0 0) false 0 0 0 hC
    (by rw [List.length_set]; exact hn) hg (by simp)
    (by rw [hN]; exact hfit) (by rw [hN]; exact hf)
  rw [hN] at h
  unfold read
  rw [storeDest_inside dst false 0 0 hn]
  simp only
  rw [h]
  have e1 : (dst.set 0 0).getD 0 0 = 0 := by
    simp only [List.getD_eq_getElem?_getD]
    rw [List.getElem?_set_self hn]; rfl
  have e2 : (dst.set 0 0).length - 0 - 1 = n := by rw [List.length_set]; omega
  rw [e1, e2, hlen, getBytes_succ]
  simp

/-- A `read` of `n ≥ 1` bytes that needs more channels than are left returns failure
with the cursor at the end of the buffer. -/
theorem read_exhausted (b : Nat) (hb : b = 1 ∨ b = 2 ∨ b = 4) (f : Nat) (dec : ImageDecoder)
    (dst : List Nat) (hbe : dec.bits_per_channel = b) (hC : dec.channels.length < 2 ^ 32)
    (hn : 0 < dst.length)
    (hle : dec.current_channel_index ≤ dec.channels.length)
    (hnot : dec.channels.length < dec.current_channel_index + 8 / b * dst.length)
    (hf : dec.channels.length - dec.current_channel_index < f) :
    ∃ d, read f dec dst =
        .done ⟨false, { dec with current_channel_index := dec.channels.length }, d, false⟩ ∧
      d.length = dst.length := by
  have hbg := groups_cases b hb
  have hg : 0 < 8 / b := by omega
  rcases dec with ⟨chans, idx, m, b'⟩
  simp only at hbe hC hle hnot hf ⊢
  subst hbe
  obtain ⟨n, hlen⟩ : ∃ n, dst.length = n + 1 := ⟨dst.length - 1, by omega⟩
  have hN : 8 / b' - 0 + 8 / b' * ((dst.set 0 0).length - 0 - 1) = 8 / b' * dst.length := by
    rw [List.length_set, hlen, Nat.mul_add]; simp; omega
  obtain ⟨d, hd, hdl⟩ := readLoop_exhaust b' (8 / b') (by omega) f chans idx m (dst.set 0 0)
    false 0 0 0 hC (by rw [List.length_set]; exact hn) hg (by simp) hle
    (by rw [hN]; exact hnot) hf
  refine ⟨d, ?_, by rw [hdl, List.length_set]⟩
  unfold read
  rw [storeDest_inside dst false 0 0 hn]
  exact hd

/-- Whatever `read` of `n ≥ 1` bytes returns is the result of `read_fits` or of
`read_exhausted`. -/
theorem read_done (b : Nat) (hb : b = 1 ∨ b = 2 ∨ b = 4) (f : Nat) (dec : ImageDecoder)
    (dst : List Nat) (r : ReadResult) (hbe : dec.bits_per_channel = b)
    (hC : dec.channels.length < 2 ^ 32) (hn : 0 < dst.length)
    (hle : dec.current_channel_index ≤ dec.channels.length)
    (h : read f dec dst = .done r) :
    (dec.current_channel_index + 8 / b * dst.length ≤ dec.channels.length →
      r = ⟨true,
        { dec with current_channel_index := dec.current_channel_index + 8 / b * dst.length },
        getBytes dec.mask b dst.length dec.channels dec.current_channel_index, false⟩) ∧
    (dec.channels.length < dec.current_channel_index + 8 / b * dst.length →
      r.ok = false ∧ r.decoder = { dec with current_channel_index := dec.channels.length } ∧
        r.overrun = false ∧ r.destination.length = dst.length) := by
  constructor
  · intro hfit
    have h1 := read_mono_add f (8 / b * dst.length) dec dst r h
    rw [read_fits b hb _ dec dst hbe hC hn hfit (by omega)] at h1
    cases h1
    rfl
  · intro hnot
    have h1 := read_mono_add f (dec.channels.length - dec.current_channel_index + 1) dec dst r h
    obtain ⟨d, hd, hdl⟩ := read_exhausted b hb
      (f + (dec.channels.length - dec.current_channel_index + 1)) dec dst hbe hC hn hle hnot
      (by omega)
    rw [hd] at h1
    cases h1
    exact ⟨rfl, rfl, rfl, hdl⟩


/-- Emitting `d1 ++ d2` is emitting `d1` and then `d2` where `d1` ended. -/
theorem putBytes_append (m b : Nat) :
    ∀ (d1 d2 chans : List Nat) (idx : Nat),
      putBytes m b (d1 ++ d2) chans idx =
        putBytes m b d2 (putBytes m b d1 chans idx) (idx + 8 / b * d1.length) := by
  intro d1
  induction d1 with
  | nil => intro d2 chans idx; simp [putBytes_nil]
  | cons v rest ih =>
    intro d2 chans idx
    rw [List.cons_append, putBytes_cons, putBytes_cons, ih, List.length_cons, Nat.mul_add,
      Nat.mul_one]
    congr 1
    omega

set_option maxRecDepth 1000000 in
theorem putLow_facts_1 : ∀ ch < 256, ∀ r < 2,
    putLow 1 ch r &&& 1 = r ∧ putLow 1 ch r &&& (255 - 1) = ch &&& (255 - 1) ∧
      putLow 1 ch r = (ch &&& (255 - 1)) ||| r := by
  decide

set_option maxRecDepth 1000000 in
theorem putLow_facts_2 : ∀ ch < 256, ∀ r < 4,
    putLow 3 ch r &&& 3 = r ∧ putLow 3 ch r &&& (255 - 3) = ch &&& (255 - 3) ∧
      putLow 3 ch r = (ch &&& (255 - 3)) ||| r := by
  decide

set_option maxRecDepth 1000000 in
theorem putLow_facts_4 : ∀ ch < 256, ∀ r < 16,
    putLow 15 ch r &&& 15 = r ∧ putLow 15 ch r &&& (255 - 15) = ch &&& (255 - 15) ∧
      putLow 15 ch r = (ch &&& (255 - 15)) ||| r := by
  decide

set_option maxRecDepth 1000000 in
theorem reassemble_1 : ∀ v < 256, getGroups 1 1 8 (groupsOf 1 1 v) 0 0 0 = v := by
  decide

set_option maxRecDepth 1000000 in
theorem reassemble_2 : ∀ v < 256, getGroups 3 2 4 (groupsOf 3 2 v) 0 0 0 = v := by
  decide

set_option maxRecDepth 1000000 in
theorem reassemble_4 : ∀ v < 256, getGroups 15 4 2 (groupsOf 15 4 v) 0 0 0 = v := by
  decide


theorem maskOf_cases (b : Nat) (hb : b = 1 ∨ b = 2 ∨ b = 4) :
    (b = 1 ∧ maskOf b = 1) ∨ (b = 2 ∧ maskOf b = 3) ∨ (b = 4 ∧ maskOf b = 15) := by
  rcases hb with rfl | rfl | rfl <;> simp [maskOf]

theorem putLow_low (b : Nat) (hb : b = 1 ∨ b = 2 ∨ b = 4) (ch r : Nat) (hch : ch < 256) :
    putLow (maskOf b) ch (r &&& maskOf b) &&& maskOf b = r &&& maskOf b := by
  rcases maskOf_cases b hb with ⟨_, h⟩ | ⟨_, h⟩ | ⟨_, h⟩ <;> rw [h]
  · exact (putLow_facts_1 ch hch _ (Nat.lt_succ_of_le Nat.and_le_right)).1
  · exact (putLow_facts_2 ch hch _ (Nat.lt_succ_of_le Nat.and_le_right)).1
  · exact (putLow_facts_4 ch hch _ (Nat.lt_succ_of_le Nat.and_le_right)).1

theorem putLow_high (b : Nat) (hb : b = 1 ∨ b = 2 ∨ b = 4) (ch r : Nat) (hch : ch < 256) :
    putLow (maskOf b) ch (r &&& maskOf b) &&& (255 - maskOf b) = ch &&& (255 - maskOf b) := by
  rcases maskOf_cases b hb with ⟨_, h⟩ | ⟨_, h⟩ | ⟨_, h⟩ <;> rw [h]
  · exact (putLow_facts_1 ch hch _ (Nat.lt_succ_of_le Nat.and_le_right)).2.1
  · exact (putLow_facts_2 ch hch _ (Nat.lt_succ_of_le Nat.and_le_right)).2.1
  · exact (putLow_facts_4 ch hch _ (Nat.lt_succ_of_le Nat.and_le_right)).2.1

theorem putLow_eq (b : Nat) (hb : b = 1 ∨ b = 2 ∨ b = 4) (ch r : Nat) (hch : ch < 256) :
    putLow (maskOf b) ch (r &&& maskOf b) = (ch &&& (255 - maskOf b)) ||| (r &&& maskOf b) := by
  rcases maskOf_cases b hb with ⟨_, h⟩ | ⟨_, h⟩ | ⟨_, h⟩ <;> rw [h]
  · exact (putLow_facts_1 ch hch _ (Nat.lt_succ_of_le Nat.and_le_right)).2.2
  · exact (putLow_facts_2 ch hch _ (Nat.lt_succ_of_le Nat.and_le_right)).2.2
  · exact (putLow_facts_4 ch hch _ (Nat.lt_succ_of_le Nat.and_le_right)).2.2

theorem putLow_lt (m ch r : Nat) : putLow m ch r < 256 := by
  unfold putLow
  exact Nat.mod_lt _ (by norm_num)

/-- The byte assembled by `getGroups` depends only on the masked low bits of the
channels it reads. -/
theorem getGroups_congr (m b : Nat) :
    ∀ (j : Nat) (c1 c2 : List Nat) (i1 i2 acc bits : Nat),
      (∀ s < j, c1.getD (i1 + s) 0 &&& m = c2.getD (i2 + s) 0 &&& m) →
      getGroups m b j c1 i1 acc bits = getGroups m b j c2 i2 acc bits := by
  intro j
  induction j with
  | zero => intro c1 c2 i1 i2 acc bits _; rfl
  | succ j ih =>
    intro c1 c2 i1 i2 acc bits h
    rw [getGroups_succ, getGroups_succ]
    have h0 := h 0 (by omega)
    simp only [Nat.add_zero] at h0
    rw [h0]
    apply ih
    intro s hs
    have := h (s + 1) (by omega)
    rw [show i1 + (s + 1) = i1 + 1 + s by omega, show i2 + (s + 1) = i2 + 1 + s by omega] at this
    exact this

theorem groupsOf_getD (m b v s : Nat) (hs : s < 8 / b) :
    (groupsOf m b v).getD s 0 = (v >>> (s * b)) &&& m := by
  simp [groupsOf, List.getD, List.getElem?_map, List.getElem?_range hs]

/-- The groups of a byte, OR-ed back at their bit offsets, give the byte. -/
theorem reassemble (b : Nat) (hb : b = 1 ∨ b = 2 ∨ b = 4) (v : Nat) (hv : v < 256) :
    getGroups (maskOf b) b (8 / b) (groupsOf (maskOf b) b v) 0 0 0 = v := by
  rcases hb with rfl | rfl | rfl
  · exact reassemble_1 v hv
  · exact reassemble_2 v hv
  · exact reassemble_4 v hv

theorem getGroups_of_groups (b : Nat) (hb : b = 1 ∨ b = 2 ∨ b = 4) (v : Nat) (hv : v < 256)
    (chans : List Nat) (i : Nat)
    (h : ∀ s < 8 / b, chans.getD (i + s) 0 &&& maskOf b = (v >>> (s * b)) &&& maskOf b) :
    getGroups (maskOf b) b (8 / b) chans i 0 0 = v := by
  rw [getGroups_congr (maskOf b) b (8 / b) chans (groupsOf (maskOf b) b v) i 0 0 0]
  · exact reassemble b hb v hv
  · intro s hs
    rw [h s hs, Nat.zero_add, groupsOf_getD _ _ _ _ hs, Nat.and_assoc, Nat.and_self]

/-- If the masked low bits of the channels are the groups of the bytes of `data`, least
significant group first, then `getBytes` assembles `data`. -/
theorem getBytes_eq_of_groups (b : Nat) (hb : b = 1 ∨ b = 2 ∨ b = 4) :
    ∀ (data chans : List Nat) (idx : Nat), (∀ x ∈ data, x < 256) →
      (∀ j < data.length, ∀ s < 8 / b,
        chans.getD (idx + 8 / b * j + s) 0 &&& maskOf b
          = (data.getD j 0 >>> (s * b)) &&& maskOf b) →
      getBytes (maskOf b) b data.length chans idx = data := by
  intro data
  induction data with
  | nil => intro chans idx _ _; rfl
  | cons v rest ih =>
    intro chans idx hdata h
    rw [List.length_cons, getBytes_succ]
    congr 1
    · apply getGroups_of_groups b hb v (hdata v (List.mem_cons_self _ _))
      intro s hs
      have := h 0 (by simp) s hs
      simpa using this
    · apply ih
      · exact fun x hx => hdata x (List.mem_cons_of_mem _ hx)
      · intro j hj s hs
        have := h (j + 1) (by simp; omega) s hs
        rw [Nat.mul_add, Nat.mul_one] at this
        rw [show idx + 8 / b + 8 / b * j + s = idx + (8 / b * j + 8 / b) + s by
          set g := 8 / b
          omega]
        simpa using this

/-- Reading back, from channel `idx` on, what `putBytes` stored there gives the bytes
that were stored. -/
theorem getBytes_putBytes (b : Nat) (hb : b = 1 ∨ b = 2 ∨ b = 4) (data chans : List Nat)
    (idx : Nat) (hdata : ∀ x ∈ data, x < 256) (hchans : ∀ c ∈ chans, c < 256)
    (hfit : idx + 8 / b * data.length ≤ chans.length) :
    getBytes (maskOf b) b data.length (putBytes (maskOf b) b data chans idx) idx = data := by
  apply getBytes_eq_of_groups b hb _ _ _ hdata
  intro j hj s hs
  have hg : 0 < 8 / b := by rcases hb with rfl | rfl | rfl <;> norm_num
  set g := 8 / b with hgdef
  have hlt : idx + g * j + s < idx + g * data.length := by
    have : g * (j + 1) ≤ g * data.length := Nat.mul_le_mul_left g hj
    rw [Nat.mul_add, Nat.mul_one] at this
    omega
  have hin := putBytes_inside (maskOf b) b hb data chans idx (idx + g * j + s) (by omega)
    hlt (by omega)
  have e1 : (idx + g * j + s - idx) / (8 / b) = j := by
    rw [← hgdef, show idx + g * j + s - idx = s + g * j by omega, Nat.add_mul_div_left _ _ hg,
      Nat.div_eq_of_lt hs, Nat.zero_add]
  have e2 : (idx + g * j + s - idx) % (8 / b) = s := by
    rw [← hgdef, show idx + g * j + s - idx = s + g * j by omega, Nat.add_mul_mod_self_left,
      Nat.mod_eq_of_lt hs]
  rw [e1, e2] at hin
  have hc : chans.getD (idx + g * j + s) 0 < 256 := by
    rw [List.getD_eq_getElem _ _ (by omega)]
    exact hchans _ (List.getElem_mem _)
  simp only [List.getD_eq_getElem?_getD] at hc ⊢
  rw [hin]
  simp only [Option.getD_some]
  rw [← List.getD_eq_getElem?_getD]
  exact putLow_low b hb _ _ (by simpa using hc)


/-- A successful `write` of fewer than `2 ^ 29` bytes: the capacity check passed, the
touched channels lie inside the buffer, and the encoder afterwards is known. -/
theorem write_true_small (b : Nat) (hb : b = 1 ∨ b = 2 ∨ b = 4) (f : Nat)
    (enc : ImageEncoder) (data : List Nat) (e : ImageEncoder)
    (hbe : enc.bits_per_channel = b) (hC : enc.channels.length < 2 ^ 32)
    (hdata : ∀ x ∈ data, x < 256) (hsmall : data.length * 8 < 2 ^ 32)
    (hw : write f enc data = .done (true, e)) :
    ¬ enc.available_bits < (enc.bits_written + data.length * 8) % 2 ^ 32 ∧
    (data = [] ∨
      enc.current_channel_index + 8 / b * data.length ≤ enc.channels.length) ∧
    e = { enc with
          channels := putBytes enc.mask b data enc.channels enc.current_channel_index
          current_channel_index := enc.current_channel_index + 8 / b * data.length
          bits_written := (enc.bits_written + data.length * 8) % 2 ^ 32 } := by
  have hcap : ¬ enc.available_bits < (enc.bits_written + data.length * 8) % 2 ^ 32 := by
    intro hc
    rw [write_exceeded f enc data hc] at hw
    cases hw
  have h := (write_accepted b hb f enc data hbe hC hdata hcap).2.1 true e hw
  have hn : data.length % 2 ^ 29 = data.length := Nat.mod_eq_of_lt (by omega)
  rw [hn] at h
  refine ⟨hcap, ?_, ?_⟩
  · rcases h.2.1 with h0 | h0
    · left; exact List.eq_nil_of_length_eq_zero h0
    · right; exact h0
  · rw [h.2.2, writeResult_small enc data hsmall, hbe]


theorem getElem?_of_lt (l : List Nat) (i : Nat) (h : i < l.length) :
    l[i]? = some (l.getD i 0) := by
  simp [List.getD, List.getElem?_eq_getElem h]

theorem writeLoop_step_load_mk (f : Nat) (chans : List Nat) (idx m b av bw v : Nat)
    (rest : List Nat) (rb rv ch : Nat) (hrb : rb ≠ 0) (hch : chans[idx]? = some ch) :
    writeLoop (f + 1) ⟨chans, idx, m, b, av, bw⟩ (v :: rest) rb rv 0 =
      writeLoop f ⟨chans.set idx (putLow m ch (v &&& m)), (idx + 1) % 2 ^ 32, m, b, av, bw⟩
        rest ((rb + 2 ^ 32 - b) % 2 ^ 32) ((v >>> b) % 256)
        (((8 + 2 ^ 32 - b) % 2 ^ 32) % 256) :=
  writeLoop_step_load f ⟨chans, idx, m, b, av, bw⟩ v rest rb rv ch hrb hch

theorem writeLoop_step_mid_mk (f : Nat) (chans : List Nat) (idx m b av bw : Nat)
    (data : List Nat) (rb rv rvb ch : Nat) (hrb : rb ≠ 0) (hrvb : rvb ≠ 0)
    (hch : chans[idx]? = some ch) :
    writeLoop (f + 1) ⟨chans, idx, m, b, av, bw⟩ data rb rv rvb =
      writeLoop f ⟨chans.set idx (putLow m ch (rv &&& m)), (idx + 1) % 2 ^ 32, m, b, av, bw⟩
        data ((rb + 2 ^ 32 - b) % 2 ^ 32) ((rv >>> b) % 256)
        (((rvb + 2 ^ 32 - b) % 2 ^ 32) % 256) :=
  writeLoop_step_mid f ⟨chans, idx, m, b, av, bw⟩ data rb rv rvb ch hrb hrvb hch

theorem write_accepted_mk (f : Nat) (chans : List Nat) (idx m b av bw : Nat) (data : List Nat)
    (h : ¬ av < (bw + data.length * 8) % 2 ^ 32) :
    write f ⟨chans, idx, m, b, av, bw⟩ data =
      match writeLoop f ⟨chans, idx, m, b, av, (bw + data.length * 8) % 2 ^ 32⟩ data
        ((data.length * 8) % 2 ^ 32) 0 0 with
      | .done encoder2 => .done (true, encoder2)
      | .fault => .fault
      | .timeout => .timeout := by
  simp only [write, gt_iff_lt]
  rw [if_neg h]

/-- On a buffer of `2 ^ 32` channels, an encoder at cursor `2 ^ 32 - 1` (four bits per
channel) that writes the byte `v` stores the low group in the last channel, wraps its
32-bit cursor to `0` and stores the high group in channel `0`. -/
theorem write_cursor_wraps (chans : List Nat) (hlen : chans.length = 4294967296) (v : Nat) :
    write 2 ⟨chans, 4294967295, 15, 4, 0, 4294967288⟩ [v] =
      .done (true,
        ⟨(chans.set 4294967295 (putLow 15 (chans.getD 4294967295 0) (v &&& 15))).set 0
            (putLow 15 ((chans.set 4294967295
              (putLow 15 (chans.getD 4294967295 0) (v &&& 15))).getD 0 0)
              (v >>> 4 % 256 &&& 15)),
          1, 15, 4, 0, 0⟩) := by
  have e0 : (4294967288 + [v].length * 8) % 2 ^ 32 = 0 := by
    simp only [List.length_cons, List.length_nil]; norm_num
  have e0b : ([v].length * 8) % 2 ^ 32 = 8 := by
    simp only [List.length_cons, List.length_nil]; norm_num
  have e1 : (4294967295 + 1) % 2 ^ 32 = 0 := by norm_num
  have e2 : (8 + 2 ^ 32 - 4) % 2 ^ 32 = 4 := by norm_num
  have e3 : (4 : Nat) % 256 = 4 := by norm_num
  have e4 : (4 + 2 ^ 32 - 4) % 2 ^ 32 = 0 := by norm_num
  have e5 : (0 : Nat) % 256 = 0 := by norm_num
  have e6 : (0 + 1) % 2 ^ 32 = 1 := by norm_num
  have s0 := write_accepted_mk 2 chans 4294967295 15 4 0 4294967288 [v] (by
    rw [e0]; norm_num)
  rw [e0, e0b] at s0
  have s1 := writeLoop_step_load_mk 1 chans 4294967295 15 4 0 0 v [] 8 0 _ (by norm_num)
    (getElem?_of_lt chans 4294967295 (by rw [hlen]; norm_num))
  rw [e1, e2, e3] at s1
  have s2 := writeLoop_step_mid_mk 0
    (chans.set 4294967295 (putLow 15 (chans.getD 4294967295 0) (v &&& 15))) 0 15 4 0 0 [] 4
    (v >>> 4 % 256) 4 _ (by norm_num) (by norm_num)
    (getElem?_of_lt _ 0 (by rw [List.length_set, hlen]; norm_num))
  rw [e4, e5, e6] at s2
  rw [s0, s1, s2, writeLoop_no_bits]


/-- A write of `2 ^ 29` bytes (`2 ^ 32` bits) on a fresh encoder: `bits_written` wraps to
`0`, the capacity check passes, `remaining_bits` is `0`, and the call returns `true` with
the encoder as it was. -/
theorem write_wrapped_length (chans data : List Nat) (b : Nat)
    (hd : data.length = 536870912) (f : Nat) :
    write f (create_image_encoder chans b) data = .done (true, create_image_encoder chans b) := by
  have e0 : (0 + data.length * 8) % 2 ^ 32 = 0 := by rw [hd]; norm_num
  have e1 : (data.length * 8) % 2 ^ 32 = 0 := by rw [hd]; norm_num
  unfold create_image_encoder
  rw [write_accepted_mk f chans 0 (maskOf b) b (chans.length * b % 2 ^ 32) 0 data (by
    rw [e0]; exact Nat.not_lt_zero _), e0, e1, writeLoop_no_bits]


theorem writeLoop_step_out_mk (f : Nat) (chans : List Nat) (idx m b av bw : Nat)
    (data : List Nat) (rb rv rvb : Nat) (hrb : rb ≠ 0) (hch : chans[idx]? = none) :
    writeLoop (f + 1) ⟨chans, idx, m, b, av, bw⟩ data rb rv rvb = .fault :=
  writeLoop_step_out f ⟨chans, idx, m, b, av, bw⟩ data rb rv rvb hrb hch

/-- The encode branch faults when its header write succeeds and its data write
faults. -/
theorem encode_branch_fault (f : Nat) (pixels : List Nat) (b : Nat) (data : List Nat)
    (e1 : ImageEncoder)
    (h1 : write f (create_image_encoder pixels b) (value_as_bytes (data.length % 2 ^ 32))
      = .done (true, e1))
    (h2 : write f e1 data = .fault) :
    encode_branch f pixels b data = .fault := by
  simp only [encode_branch, h1, h2]

/-- After the header write on a buffer of nine channels at four bits per channel (cursor
`8`, `bits_written = 32`), a write of `2 ^ 29 - 4` bytes wraps `bits_written` to `0`,
passes the capacity check, stores one group in channel `8` and then accesses channel `9`,
which is outside the buffer. -/
theorem write_past_end_nine (chans data : List Nat) (hc : chans.length = 9)
    (hd : data.length = 536870908) (f : Nat) :
    write (f + 2) ⟨chans, 8, 15, 4, 36, 32⟩ data = .fault := by
  have e0 : (32 + data.length * 8) % 2 ^ 32 = 0 := by rw [hd]; norm_num
  have e1 : (data.length * 8) % 2 ^ 32 = 4294967264 := by rw [hd]; norm_num
  have e2 : (8 + 1) % 2 ^ 32 = 9 := by norm_num
  have e3 : (4294967264 + 2 ^ 32 - 4) % 2 ^ 32 = 4294967260 := by norm_num
  have s0 := write_accepted_mk (f + 2) chans 8 15 4 36 32 data (by rw [e0]; norm_num)
  rw [e0, e1] at s0
  cases data with
  | nil => simp at hd
  | cons v rest =>
    have s1 := writeLoop_step_load_mk (f + 1) chans 8 15 4 36 0 v rest 4294967264 0 _
      (by norm_num) (getElem?_of_lt chans 8 (by rw [hc]; norm_num))
    rw [e2, e3] at s1
    have s2 := writeLoop_step_out_mk f
      (chans.set 8 (putLow 15 (chans.getD 8 0) (v &&& 15))) 9 15 4 36 0 rest 4294967260
      (v >>> 4 % 256) ((8 + 2 ^ 32 - 4) % 2 ^ 32 % 256) (by norm_num)
      (by rw [List.getElem?_eq_none_iff, List.length_set, hc])
    rw [s0, s1, s2]

/-- The encode branch of `tl_main` on an image of nine zero channels (three pixels), four
bits per channel, and a data file of `2 ^ 29 - 4` bytes: the header write succeeds and
the data write accesses channel `9`, outside the buffer. -/
theorem encode_branch_past_end (data : List Nat) (hd : data.length = 536870908) (f : Nat) :
    encode_branch (f + 8) (List.replicate 9 0) 4 data = .fault := by
  have hw1 : write (f + 8) (create_image_encoder (List.replicate 9 0) 4)
      [252, 255, 255, 31] =
      .done (true, ⟨[12, 15, 15, 15, 15, 15, 15, 1, 0], 8, 15, 4, 36, 32⟩) := by
    have h := (write_accepted 4 (by decide) (f + 8)
      (create_image_encoder (List.replicate 9 0) 4) [252, 255, 255, 31] rfl
      (by simp [create_image_encoder]) (by decide) (by decide)).1 (by decide)
      (by
        have : 8 / 4 * ([252, 255, 255, 31].length % 2 ^ 29) = 8 := by decide
        rw [this]; omega)
    rw [h]
    decide
  have hv : value_as_bytes (data.length % 2 ^ 32) = [252, 255, 255, 31] := by
    rw [hd]; decide
  have hw2 : write (f + 8) ⟨[12, 15, 15, 15, 15, 15, 15, 1, 0], 8, 15, 4, 36, 32⟩
      data = .fault :=
    write_past_end_nine [12, 15, 15, 15, 15, 15, 15, 1, 0] data rfl hd (f + 6)
  exact encode_branch_fault _ _ _ _ _ (by rw [hv]; exact hw1) hw2


theorem readLoop_step_more_mk (f : Nat) (chans : List Nat) (idx m b : Nat) (dst : List Nat)
    (ovr : Bool) (di bits ch : Nat) (hne : idx ≠ chans.length)
    (hch : chans[idx]? = some ch) (hbits : (bits + b) % 256 ≠ 8) (hdi : di < dst.length) :
    readLoop (f + 1) ⟨chans, idx, m, b⟩ dst ovr di bits =
      readLoop f ⟨chans, (idx + 1) % 2 ^ 32, m, b⟩
        (dst.set di ((dst.getD di 0 ||| ((ch &&& m) <<< bits)) % 256)) ovr di
        ((bits + b) % 256) := by
  rw [readLoop_step f ⟨chans, idx, m, b⟩ dst ovr di bits ch hne hch]
  simp only [storeDest_inside dst ovr di _ hdi, loadDest]
  rw [if_neg hbits]

theorem readLoop_step_last_mk (f : Nat) (chans : List Nat) (idx m b : Nat) (dst : List Nat)
    (ovr : Bool) (di bits ch : Nat) (hne : idx ≠ chans.length)
    (hch : chans[idx]? = some ch) (hbits : (bits + b) % 256 = 8)
    (hdi : di + 1 = dst.length) :
    readLoop (f + 1) ⟨chans, idx, m, b⟩ dst ovr di bits =
      .done ⟨true, ⟨chans, (idx + 1) % 2 ^ 32, m, b⟩,
        dst.set di ((dst.getD di 0 ||| ((ch &&& m) <<< bits)) % 256), ovr⟩ := by
  rw [readLoop_step f ⟨chans, idx, m, b⟩ dst ovr di bits ch hne hch]
  simp only [storeDest_inside dst ovr di _ (by omega), loadDest]
  rw [if_pos hbits, if_pos hdi]

/-- On a buffer of `2 ^ 32` channels a decoder at cursor `2 ^ 32 - 1` (four bits per
channel) asked for one byte reads the last channel, wraps its 32-bit cursor to `0`,
reads channel `0` and returns success with the cursor at `1`. -/
theorem read_cursor_wraps (chans : List Nat) (hlen : chans.length = 4294967296) (d0 : Nat) :
    ∃ d, read 2 ⟨chans, 4294967295, 15, 4⟩ [d0]
      = .done ⟨true, ⟨chans, 1, 15, 4⟩, d, false⟩ := by
  have e1 : (4294967295 + 1) % 2 ^ 32 = 0 := by norm_num
  have e2 : (0 + 4) % 256 = 4 := by norm_num
  have e3 : (0 + 1) % 2 ^ 32 = 1 := by norm_num
  have s0 : read 2 ⟨chans, 4294967295, 15, 4⟩ [d0]
      = readLoop 2 ⟨chans, 4294967295, 15, 4⟩ [0] false 0 0 := by
    simp [read, storeDest]
  have s1 := readLoop_step_more_mk 1 chans 4294967295 15 4 [0] false 0 0 _
    (by rw [hlen]; norm_num) (getElem?_of_lt chans 4294967295 (by rw [hlen]; norm_num))
    (by norm_num) (by simp)
  rw [e1, e2] at s1
  have s2 := readLoop_step_last_mk 0 chans 0 15 4
    ([0].set 0 (([0].getD 0 0 ||| (chans.getD 4294967295 0 &&& 15) <<< 0) % 256)) false 0 4 _
    (by rw [hlen]; norm_num) (getElem?_of_lt chans 0 (by rw [hlen]; norm_num))
    (by norm_num) (by simp)
  rw [e3] at s2
  exact ⟨_, by rw [s0, s1, s2]⟩


/-- The accounting of a reachable encoder when the capacity fits in 32 bits:
`bits_written = current_channel_index * bits_per_channel ≤ available_bits`, and the
buffer length, mask and capacity are those of the fresh encoder. -/
theorem Reachable.invariant (chans : List Nat) (b : Nat) (hb : b = 1 ∨ b = 2 ∨ b = 4)
    (hCb : chans.length * b < 2 ^ 32) (s : ImageEncoder) (h : Reachable chans b s) :
    s.bits_per_channel = b ∧ s.mask = maskOf b ∧ s.channels.length = chans.length ∧
      s.available_bits = chans.length * b ∧
      s.bits_written = s.current_channel_index * b ∧
      s.current_channel_index ≤ chans.length := by
  induction h with
  | fresh =>
    simp only [create_image_encoder, Nat.zero_mul, Nat.zero_le, and_true, true_and]
    exact Nat.mod_eq_of_lt hCb
  | step enc enc1 fuel data _ hdata hw ih =>
    obtain ⟨h1, h2, h3, h4, h5, h6⟩ := ih
    have hC : enc.channels.length < 2 ^ 32 := by
      rw [h3]; rcases hb with rfl | rfl | rfl <;> omega
    have hcap : ¬ enc.available_bits < (enc.bits_written + data.length * 8) % 2 ^ 32 := by
      intro hc
      rw [write_exceeded fuel enc data hc] at hw
      cases hw
    obtain ⟨_, hfit, he⟩ := (write_accepted b hb fuel enc data h1 hC hdata hcap).2.1 true enc1 hw
    subst he
    simp only [writeResult, putBytes_length, h1]
    refine ⟨trivial, h2, h3, h4, ?_, ?_⟩
    · rw [h5]
      rw [h3] at hfit
      rcases hb with rfl | rfl | rfl <;> omega
    · rw [h3] at hfit
      rcases hfit with h | h
      · rw [h]; omega
      · exact h


/-- A write of `2 ^ 29 - 1` bytes on a fresh encoder over eight channels at two bits per
channel is refused: `bits_written` becomes `2 ^ 32 - 8`, more than the capacity `16`. -/
theorem write_refused_long (chans a : List Nat) (hc : chans.length = 8)
    (ha : a.length = 536870911) (f : Nat) :
    write f (create_image_encoder chans 2) a = .done (false, ⟨chans, 0, 3, 2, 16, 4294967288⟩) := by
  have e0 : (0 + a.length * 8) % 2 ^ 32 = 4294967288 := by rw [ha]; norm_num
  have e1 : chans.length * 2 % 2 ^ 32 = 16 := by rw [hc]; norm_num
  have h := write_exceeded f (create_image_encoder chans 2) a (by
    simp only [create_image_encoder]
    rw [e0, e1]; norm_num)
  rw [h]
  simp only [create_image_encoder]
  rw [e0, e1]
  rfl


/-- C3: for `bits_per_channel` in {1, 2, 4}, a byte-valued channel buffer of fewer than
`2 ^ 32` channels with any contents, an encoder with any cursor `k`, and a byte sequence
`B` with `len(B) * 8 < 2 ^ 32`: if `write B` succeeds and `read` into a destination of
`len(B)` bytes on a decoder with cursor `k` over the resulting buffer succeeds, then the
destination equals `B`. -/
theorem C3_read_returns_written (b : Nat) (enc : ImageEncoder) (B dst : List Nat)
    (f1 f2 : Nat) (e : ImageEncoder) (r : ReadResult)
    (hb : b = 1 ∨ b = 2 ∨ b = 4) (hbe : enc.bits_per_channel = b)
    (hm : enc.mask = maskOf b) (hch : ∀ c ∈ enc.channels, c < 256)
    (hC : enc.channels.length < 2 ^ 32) (hbytes : ∀ x ∈ B, x < 256)
    (hsmall : B.length * 8 < 2 ^ 32) (hdst : dst.length = B.length)
    (hw : write f1 enc B = .done (true, e))
    (hr : read f2 ⟨e.channels, enc.current_channel_index, maskOf b, b⟩ dst = .done r)
    (hok : r.ok = true) :
    r.destination = B := by
  obtain ⟨_, hfit, he⟩ := write_true_small b hb f1 enc B e hbe hC hbytes hsmall hw
  rcases hfit with hnil | hfit
  · subst hnil
    have hd : dst = [] := List.eq_nil_of_length_eq_zero hdst
    subst hd
    rw [read_empty f2 _ r hr] at hok
    cases hok
  · have hlen : 0 < B.length := by
      rcases Nat.eq_zero_or_pos B.length with h0 | h0
      · have hd : dst = [] := List.eq_nil_of_length_eq_zero (by rw [hdst, h0])
        subst hd
        rw [read_empty f2 _ r hr] at hok
        cases hok
      · exact h0
    subst he
    simp only [hm] at hr
    have h1 := (read_done b hb f2 _ dst r rfl
      (by simp only [putBytes_length]; exact hC) (by omega)
      (by
        simp only [putBytes_length]
        exact Nat.le_trans (Nat.le_add_right _ _) hfit) hr).1
      (by simp only [putBytes_length, hdst]; exact hfit)
    rw [h1]
    simp only [hdst]
    exact getBytes_putBytes b hb B enc.channels enc.current_channel_index hbytes hch hfit

/-- C3 (witness): an encoder at cursor `4` over eight channels of value `240`, two bits
per channel, the byte `177`. -/
theorem C3_read_returns_written_witness :
    (2 = 1 ∨ 2 = 2 ∨ 2 = 4) ∧
    write 4 ⟨List.replicate 8 240, 4, 3, 2, 16, 8⟩ [177]
      = .done (true, ⟨[240, 240, 240, 240, 241, 240, 243, 242], 8, 3, 2, 16, 16⟩) ∧
    read 4 ⟨[240, 240, 240, 240, 241, 240, 243, 242], 4, maskOf 2, 2⟩ [99]
      = .done ⟨true, ⟨[240, 240, 240, 240, 241, 240, 243, 242], 8, 3, 2⟩, [177], false⟩ ∧
    (⟨true, ⟨[240, 240, 240, 240, 241, 240, 243, 242], 8, 3, 2⟩, [177], false⟩ :
      ReadResult).destination = [177] :=
  ⟨by decide, by decide, by decide,
    C3_read_returns_written 2 ⟨List.replicate 8 240, 4, 3, 2, 16, 8⟩ [177] [99] 4 4
      ⟨[240, 240, 240, 240, 241, 240, 243, 242], 8, 3, 2, 16, 16⟩
      ⟨true, ⟨[240, 240, 240, 240, 241, 240, 243, 242], 8, 3, 2⟩, [177], false⟩
      (by decide) (by decide) (by decide) (by decide) (by simp) (by decide) (by decide)
      (by decide) (by decide) (by decide) (by decide)⟩


theorem groups_index (b : Nat) (hb : b = 1 ∨ b = 2 ∨ b = 4) (k j g : Nat) (hg : g < 8 / b) :
    (k + j * (8 / b) + g - k) / (8 / b) = j ∧ (k + j * (8 / b) + g - k) % (8 / b) = g := by
  rcases hb with rfl | rfl | rfl <;> norm_num at hg ⊢ <;> omega

/-- C4 (amended): for `bits_per_channel` `b` in {1, 2, 4} with mask `m`, an encoder with
cursor `k` over a byte-valued buffer of fewer than `2 ^ 32` channels, and a byte sequence
`B` with `len(B) * 8 < 2 ^ 32` for which `write B` succeeds: afterwards the cursor is
`k + len(B) * 8 / b`, and for every byte index `j < len(B)` and group index `g < 8 / b`
the channel at `k + j * (8 / b) + g` is `(old AND NOT m) OR ((B[j] >> (g * b)) AND m)`. -/
theorem C4_write_layout (b : Nat) (enc : ImageEncoder) (B : List Nat) (f : Nat)
    (e : ImageEncoder) (hb : b = 1 ∨ b = 2 ∨ b = 4) (hbe : enc.bits_per_channel = b)
    (hm : enc.mask = maskOf b) (hch : ∀ c ∈ enc.channels, c < 256)
    (hC : enc.channels.length < 2 ^ 32) (hbytes : ∀ x ∈ B, x < 256)
    (hsmall : B.length * 8 < 2 ^ 32) (hw : write f enc B = .done (true, e)) :
    e.current_channel_index = enc.current_channel_index + B.length * 8 / b ∧
    ∀ j < B.length, ∀ g < 8 / b,
      e.channels[enc.current_channel_index + j * (8 / b) + g]? =
        some ((enc.channels.getD (enc.current_channel_index + j * (8 / b) + g) 0
            &&& (255 - maskOf b)) ||| ((B.getD j 0 >>> (g * b)) &&& maskOf b)) := by
  obtain ⟨_, hfit, he⟩ := write_true_small b hb f enc B e hbe hC hbytes hsmall hw
  subst he
  constructor
  · simp only
    congr 1
    rcases hb with rfl | rfl | rfl <;> omega
  · intro j hj g hg
    have hfit2 : enc.current_channel_index + 8 / b * B.length ≤ enc.channels.length := by
      rcases hfit with h | h
      · subst h; simp at hj
      · exact h
    have hlt : enc.current_channel_index + j * (8 / b) + g
        < enc.current_channel_index + 8 / b * B.length := by
      have : 8 / b * (j + 1) ≤ 8 / b * B.length := Nat.mul_le_mul_left _ hj
      rw [Nat.mul_add, Nat.mul_one, Nat.mul_comm] at this
      omega
    have hin := putBytes_inside enc.mask b hb B enc.channels enc.current_channel_index
      (enc.current_channel_index + j * (8 / b) + g) (by omega) hlt (by omega)
    obtain ⟨e1, e2⟩ := groups_index b hb enc.current_channel_index j g hg
    rw [e1, e2] at hin
    simp only
    rw [hin, hm]
    have hc : enc.channels.getD (enc.current_channel_index + j * (8 / b) + g) 0 < 256 := by
      rw [List.getD_eq_getElem _ _ (by omega)]
      exact hch _ (List.getElem_mem _)
    rw [putLow_eq b hb _ _ hc]

/-- C4 (witness): eight channels all `0b11110000`, two bits per channel, the byte
`0b10110001`: channels 0..3 become `0b11110001`, `0b11110000`, `0b11110011`,
`0b11110010` and the cursor becomes `4`. -/
theorem C4_write_layout_witness :
    write 4 (create_image_encoder (List.replicate 8 0b11110000) 2) [0b10110001] =
      .done (true, ⟨[0b11110001, 0b11110000, 0b11110011, 0b11110010,
        0b11110000, 0b11110000, 0b11110000, 0b11110000], 4, 3, 2, 16, 8⟩) ∧
    ((4 : Nat) = (create_image_encoder (List.replicate 8 0b11110000) 2).current_channel_index
        + [0b10110001].length * 8 / 2 ∧
      ∀ j < [0b10110001].length, ∀ g < 8 / 2,
        [0b11110001, 0b11110000, 0b11110011, 0b11110010,
          0b11110000, 0b11110000, 0b11110000, 0b11110000][
            (create_image_encoder (List.replicate 8 0b11110000) 2).current_channel_index
              + j * (8 / 2) + g]? =
          some (((create_image_encoder (List.replicate 8 0b11110000) 2).channels.getD
              ((create_image_encoder (List.replicate 8 0b11110000) 2).current_channel_index
                + j * (8 / 2) + g) 0
              &&& (255 - maskOf 2)) ||| (([0b10110001].getD j 0 >>> (g * 2)) &&& maskOf 2))) :=
  ⟨by decide,
    C4_write_layout 2 (create_image_encoder (List.replicate 8 0b11110000) 2) [0b10110001] 4
      ⟨[0b11110001, 0b11110000, 0b11110011, 0b11110010,
        0b11110000, 0b11110000, 0b11110000, 0b11110000], 4, 3, 2, 16, 8⟩
      (by decide) (by decide) (by decide) (by decide) (by simp [create_image_encoder])
      (by decide) (by decide) (by decide)⟩

/-- C4 (counterexample): an encoder at cursor `2 ^ 32 - 1` over `2 ^ 32` zero channels
(four bits per channel, `bits_written = 2 ^ 32 - 8`) writes one byte successfully, and
its cursor is then `1`, not `2 ^ 32 - 1 + 2`: the 32-bit cursor has wrapped. -/
theorem C4_counterexample :
    ∃ e, write 2 ⟨List.replicate 4294967296 0, 4294967295, 15, 4, 0, 4294967288⟩ [0] =
        .done (true, e) ∧
      e.current_channel_index = 1 ∧
      e.current_channel_index ≠ 4294967295 + [0].length * 8 / 4 :=
  ⟨_, write_cursor_wraps (List.replicate 4294967296 0) (List.length_replicate _ _) 0, rfl,
    by decide⟩


/-- C5 (amended): for `bits_per_channel` `b` in {1, 2, 4}, an encoder with cursor `k`
over a byte-valued buffer of fewer than `2 ^ 32` channels, and any byte sequence `B`:
when `write B` returns (success or failure), the buffer has its length unchanged, every
channel at an index outside `[k, k + len(B) * 8 / b)` is unchanged, and every channel
inside that range has its high `8 - b` bits (`value AND NOT mask`) unchanged.  Within
`8 / b * (len(B) % 2 ^ 29)` loop steps the call has ended. -/
theorem C5_high_bits_preserved (b : Nat) (enc : ImageEncoder) (B : List Nat) (f : Nat)
    (hb : b = 1 ∨ b = 2 ∨ b = 4) (hbe : enc.bits_per_channel = b)
    (hm : enc.mask = maskOf b) (hch : ∀ c ∈ enc.channels, c < 256)
    (hC : enc.channels.length < 2 ^ 32) (hbytes : ∀ x ∈ B, x < 256) :
    (∀ ok e, write f enc B = .done (ok, e) →
      e.channels.length = enc.channels.length ∧
      (∀ i, (i < enc.current_channel_index ∨
            enc.current_channel_index + B.length * 8 / b ≤ i) →
        e.channels[i]? = enc.channels[i]?) ∧
      (∀ i, enc.current_channel_index ≤ i →
        i < enc.current_channel_index + B.length * 8 / b →
        e.channels.getD i 0 &&& (255 - maskOf b)
          = enc.channels.getD i 0 &&& (255 - maskOf b))) ∧
    (8 / b * (B.length % 2 ^ 29) ≤ f → write f enc B ≠ .timeout) := by
  have hbg := groups_cases b hb
  by_cases hcap : enc.available_bits < (enc.bits_written + B.length * 8) % 2 ^ 32
  · rw [write_exceeded f enc B hcap]
    refine ⟨?_, fun _ h => by cases h⟩
    intro ok e h
    cases h
    exact ⟨rfl, fun _ _ => rfl, fun _ _ _ => rfl⟩
  · obtain ⟨_, h2, h3⟩ := write_accepted b hb f enc B hbe hC hbytes hcap
    refine ⟨?_, h3⟩
    intro ok e h
    obtain ⟨_, hfit, he⟩ := h2 ok e h
    subst he
    have hnle : 8 / b * (B.length % 2 ^ 29) ≤ B.length * 8 / b := by
      have : B.length % 2 ^ 29 ≤ B.length := Nat.mod_le _ _
      rcases hbg with ⟨rfl, h8⟩ | ⟨rfl, h8⟩ | ⟨rfl, h8⟩ <;> (rw [h8]; omega)
    have htl : (B.take (B.length % 2 ^ 29)).length = B.length % 2 ^ 29 := by
      rw [List.length_take]
      exact Nat.min_eq_left (Nat.mod_le _ _)
    simp only [writeResult, putBytes_length, hbe]
    refine ⟨trivial, ?_, ?_⟩
    · intro i hi
      apply putBytes_outside
      rw [htl]
      omega
    · intro i h1 h2
      by_cases hin : i < enc.current_channel_index + 8 / b * (B.length % 2 ^ 29)
      · have hfit2 : enc.current_channel_index + 8 / b * (B.length % 2 ^ 29)
            ≤ enc.channels.length := by
          rcases hfit with h | h
          · rw [h] at hin ⊢; omega
          · exact h
        have hi := putBytes_inside enc.mask b hb (B.take (B.length % 2 ^ 29)) enc.channels
          enc.current_channel_index i h1 (by rw [htl]; exact hin) (by omega)
        have hc : enc.channels.getD i 0 < 256 := by
          rw [List.getD_eq_getElem _ _ (by omega)]
          exact hch _ (List.getElem_mem _)
        rw [List.getD_eq_getElem?_getD, hi, Option.getD_some, hm]
        exact putLow_high b hb _ _ hc
      · rw [List.getD_eq_getElem?_getD, putBytes_outside _ _ _ _ _ _ (by rw [htl]; omega),
          ← List.getD_eq_getElem?_getD]

/-- C5 (witness): eight channels of value `240`, two bits per channel, the byte `177`
written at cursor `2`. -/
theorem C5_high_bits_preserved_witness :
    (2 = 1 ∨ 2 = 2 ∨ 2 = 4) ∧ (∀ c ∈ List.replicate 8 240, c < 256) ∧
    write 4 ⟨List.replicate 8 240, 2, 3, 2, 16, 4⟩ [177] =
      .done (true, ⟨[240, 240, 241, 240, 243, 242, 240, 240], 6, 3, 2, 16, 12⟩) ∧
    (∀ ok e, write 4 ⟨List.replicate 8 240, 2, 3, 2, 16, 4⟩ [177] = .done (ok, e) →
      e.channels.length = (List.replicate 8 240).length ∧
      (∀ i, (i < 2 ∨ 2 + [177].length * 8 / 2 ≤ i) →
        e.channels[i]? = (List.replicate 8 240)[i]?) ∧
      (∀ i, 2 ≤ i → i < 2 + [177].length * 8 / 2 →
        e.channels.getD i 0 &&& (255 - maskOf 2)
          = (List.replicate 8 240).getD i 0 &&& (255 - maskOf 2))) :=
  ⟨by decide, by decide, by decide,
    (C5_high_bits_preserved 2 ⟨List.replicate 8 240, 2, 3, 2, 16, 4⟩ [177] 4 (by decide)
      (by decide) (by decide) (by decide) (by simp) (by decide)).1⟩

/-- C5 (counterexample): an encoder at cursor `2 ^ 32 - 1` over `2 ^ 32` zero channels
(four bits per channel) writes the byte `255` successfully; channel `0` lies outside
`[2 ^ 32 - 1, 2 ^ 32 - 1 + 2)` and is changed from `0` to `15`, because the 32-bit cursor
wraps. -/
theorem C5_counterexample :
    ∃ e, write 2 ⟨List.replicate 4294967296 0, 4294967295, 15, 4, 0, 4294967288⟩ [255] =
        .done (true, e) ∧
      (0 : Nat) < 4294967295 ∧
      (List.replicate 4294967296 0)[0]? = some 0 ∧
      e.channels[0]? = some 15 := by
  refine ⟨_, write_cursor_wraps (List.replicate 4294967296 0) (List.length_replicate _ _) 255,
    by decide, ?_, ?_⟩
  · rw [List.getElem?_replicate]
    norm_num
  · simp only
    rw [List.getElem?_set_self (by rw [List.length_set, List.length_replicate]; norm_num)]
    rw [List.getD_eq_getElem?_getD, List.getElem?_set_ne (by norm_num),
      List.getElem?_replicate, if_pos (by norm_num)]
    decide


/-- C6 (code at the failing input): a fresh encoder over `2 ^ 30 - 1` zero channels at
four bits per channel has `available_bits = 2 ^ 32 - 4`, so `floor(C * b / 8) + 1` is
`2 ^ 29` bytes; `write` of `2 ^ 29` bytes returns `true` (not failure), for every step
budget, and leaves the encoder and the buffer as they were. -/
theorem C6_over_capacity_write_returns_true :
    (List.replicate 1073741823 0).length * 4 < 2 ^ 32 ∧
    (List.replicate 536870912 0).length = (List.replicate 1073741823 0).length * 4 / 8 + 1 ∧
    ∀ f, write f (create_image_encoder (List.replicate 1073741823 0) 4)
        (List.replicate 536870912 0)
      = .done (true, create_image_encoder (List.replicate 1073741823 0) 4) := by
  refine ⟨?_, ?_, ?_⟩
  · rw [List.length_replicate]; norm_num
  · rw [List.length_replicate, List.length_replicate]
  · exact write_wrapped_length _ _ 4 (List.length_replicate _ _)


/-- C7 (amended): for every encoder state and every byte sequence `B`, if `write B`
returns failure then the channel buffer, the channel cursor, the mask, the bits per
channel and the capacity are unchanged, `bits_written` has been advanced to
`(bits_written + len(B) * 8) mod 2 ^ 32`, and that value exceeds `available_bits`. -/
theorem C7_failed_write_state (enc : ImageEncoder) (B : List Nat) (f : Nat)
    (e : ImageEncoder) (h : write f enc B = .done (false, e)) :
    e = { enc with bits_written := (enc.bits_written + B.length * 8) % 2 ^ 32 } ∧
      enc.available_bits < (enc.bits_written + B.length * 8) % 2 ^ 32 :=
  ⟨(write_false f enc B e h).2, (write_false f enc B e h).1⟩

/-- C7 (witness): a fresh encoder over eight zero channels at one bit per channel, asked
to write two bytes. -/
theorem C7_failed_write_state_witness :
    write 0 (create_image_encoder (List.replicate 8 0) 1) [1, 2] =
      .done (false, ⟨List.replicate 8 0, 0, 1, 1, 8, 16⟩) ∧
    ((⟨List.replicate 8 0, 0, 1, 1, 8, 16⟩ : ImageEncoder) =
        { create_image_encoder (List.replicate 8 0) 1 with
          bits_written :=
            ((create_image_encoder (List.replicate 8 0) 1).bits_written + [1, 2].length * 8)
              % 2 ^ 32 } ∧
      (create_image_encoder (List.replicate 8 0) 1).available_bits <
        ((create_image_encoder (List.replicate 8 0) 1).bits_written + [1, 2].length * 8)
          % 2 ^ 32) :=
  ⟨by decide,
    C7_failed_write_state (create_image_encoder (List.replicate 8 0) 1) [1, 2] 0
      ⟨List.replicate 8 0, 0, 1, 1, 8, 16⟩ (by decide)⟩

/-- C7 (counterexample): on a fresh encoder over eight zero channels at one bit per
channel, `write` of two bytes fails and leaves `bits_written = 16`, so the encoder is not
in its previous state; a following `write` of one byte, which fits the eight bits of
capacity, fails too. -/
theorem C7_counterexample :
    write 0 (create_image_encoder (List.replicate 8 0) 1) [1, 2] =
      .done (false, ⟨List.replicate 8 0, 0, 1, 1, 8, 16⟩) ∧
    (⟨List.replicate 8 0, 0, 1, 1, 8, 16⟩ : ImageEncoder)
      ≠ create_image_encoder (List.replicate 8 0) 1 ∧
    write 8 (create_image_encoder (List.replicate 8 0) 1) [3] =
      .done (true, ⟨[1, 1, 0, 0, 0, 0, 0, 0], 8, 1, 1, 8, 8⟩) ∧
    write 8 ⟨List.replicate 8 0, 0, 1, 1, 8, 16⟩ [3] =
      .done (false, ⟨List.replicate 8 0, 0, 1, 1, 8, 24⟩) := by
  decide


/-- C8 (code at the failing input): on a fresh encoder over nine zero channels (a
three-pixel image) at four bits per channel, `write` of the four header bytes
`252, 255, 255, 31` (the length `2 ^ 29 - 4`) succeeds and leaves the cursor at `8` and
`bits_written = 32`; the next `write`, of `2 ^ 29 - 4` bytes, passes the capacity check
(`bits_written` wraps to `0`) and accesses channel `9`, outside the buffer, for every
step budget of at least two steps.  The encode branch of `tl_main` reaches the same
access. -/
theorem C8_write_past_channel_count :
    write 8 (create_image_encoder (List.replicate 9 0) 4) [252, 255, 255, 31] =
      .done (true, ⟨[12, 15, 15, 15, 15, 15, 15, 1, 0], 8, 15, 4, 36, 32⟩) ∧
    (∀ f, write (f + 2) ⟨[12, 15, 15, 15, 15, 15, 15, 1, 0], 8, 15, 4, 36, 32⟩
        (List.replicate 536870908 0) = .fault) ∧
    (∀ f, encode_branch (f + 8) (List.replicate 9 0) 4 (List.replicate 536870908 0)
        = .fault) := by
  refine ⟨by decide, fun f => write_past_end_nine
    [12, 15, 15, 15, 15, 15, 15, 1, 0] _ rfl (List.length_replicate _ _) f, ?_⟩
  intro f
  exact encode_branch_past_end _ (List.length_replicate _ _) f


/-- C9 (amended): for `bits_per_channel` `b` in {1, 2, 4}, a buffer of `C < 2 ^ 32`
channels, a decoder cursor `k ≤ C` and a destination of `n ≥ 1` bytes: if
`k + n * (8 / b) ≤ C` then `read` (given `n * (8 / b)` loop steps) returns success with
the cursor at `k + n * (8 / b)`; otherwise `read` (given more than `C - k` loop steps)
returns failure with the cursor at `C`; whenever `read` returns, it reports success
exactly when `k + n * (8 / b) ≤ C`; and a fresh decoder asked for more than
`floor(C * b / 8)` bytes is in the failing case. -/
theorem C9_read_exhaustion (b : Nat) (dec : ImageDecoder) (dst : List Nat)
    (hb : b = 1 ∨ b = 2 ∨ b = 4) (hbe : dec.bits_per_channel = b)
    (hC : dec.channels.length < 2 ^ 32)
    (hk : dec.current_channel_index ≤ dec.channels.length) (hn : 0 < dst.length) :
    (dec.current_channel_index + dst.length * (8 / b) ≤ dec.channels.length →
      ∀ f, dst.length * (8 / b) ≤ f →
        ∃ d, read f dec dst = .done ⟨true,
          { dec with
            current_channel_index := dec.current_channel_index + dst.length * (8 / b) },
          d, false⟩) ∧
    (dec.channels.length < dec.current_channel_index + dst.length * (8 / b) →
      ∀ f, dec.channels.length - dec.current_channel_index < f →
        ∃ d, read f dec dst = .done ⟨false,
          { dec with current_channel_index := dec.channels.length }, d, false⟩) ∧
    (∀ f r, read f dec dst = .done r →
      (r.ok = true ↔
        dec.current_channel_index + dst.length * (8 / b) ≤ dec.channels.length)) ∧
    (dec.current_channel_index = 0 → dec.channels.length * b / 8 < dst.length →
      dec.channels.length < dec.current_channel_index + dst.length * (8 / b)) := by
  have hcomm : dst.length * (8 / b) = 8 / b * dst.length := Nat.mul_comm _ _
  rw [hcomm]
  refine ⟨?_, ?_, ?_, ?_⟩
  · intro hfit f hf
    exact ⟨_, read_fits b hb f dec dst hbe hC hn hfit hf⟩
  · intro hnot f hf
    obtain ⟨d, hd, _⟩ := read_exhausted b hb f dec dst hbe hC hn hk hnot hf
    exact ⟨d, hd⟩
  · intro f r hr
    have h := read_done b hb f dec dst r hbe hC hn hk hr
    constructor
    · intro hok
      by_contra hnot
      have := (h.2 (by omega)).1
      rw [this] at hok
      cases hok
    · intro hfit
      rw [h.1 hfit]
  · intro h0 hlt
    rw [h0]
    rcases hb with rfl | rfl | rfl <;> omega

/-- C9 (witness): five channels, two bits per channel, a fresh decoder: one byte is
read with the cursor left at `4`, a request for two bytes fails with the cursor at `5`. -/
theorem C9_read_exhaustion_witness :
    (2 = 1 ∨ 2 = 2 ∨ 2 = 4) ∧
    (create_image_decoder [241, 240, 243, 242, 240] 2).current_channel_index
      ≤ (create_image_decoder [241, 240, 243, 242, 240] 2).channels.length ∧
    (∃ d, read 4 (create_image_decoder [241, 240, 243, 242, 240] 2) [0] = .done ⟨true,
      { create_image_decoder [241, 240, 243, 242, 240] 2 with
        current_channel_index :=
          (create_image_decoder [241, 240, 243, 242, 240] 2).current_channel_index
            + [0].length * (8 / 2) }, d, false⟩) ∧
    (∃ d, read 6 (create_image_decoder [241, 240, 243, 242, 240] 2) [0, 0] = .done ⟨false,
      { create_image_decoder [241, 240, 243, 242, 240] 2 with
        current_channel_index :=
          (create_image_decoder [241, 240, 243, 242, 240] 2).channels.length },
      d, false⟩) :=
  ⟨by decide, by decide,
    (C9_read_exhaustion 2 (create_image_decoder [241, 240, 243, 242, 240] 2) [0]
      (by decide) (by decide) (by simp [create_image_decoder]) (by decide) (by decide)).1
      (by decide) 4 (by decide),
    (C9_read_exhaustion 2 (create_image_decoder [241, 240, 243, 242, 240] 2) [0, 0]
      (by decide) (by decide) (by simp [create_image_decoder]) (by decide) (by decide)).2.1
      (by decide) 6 (by decide)⟩

/-- C9 (counterexample): a decoder at cursor `k = 2 ^ 32 - 1` over `C = 2 ^ 32` zero
channels, four bits per channel, asked for one byte: `k ≤ C` and `k + 1 * (8 / 4) > C`,
yet `read` returns success, with the cursor at `1`; the 32-bit cursor never equals `C`. -/
theorem C9_counterexample :
    4294967295 ≤ (List.replicate 4294967296 0).length ∧
    (List.replicate 4294967296 0).length < 4294967295 + [0].length * (8 / 4) ∧
    ∃ d, read 2 ⟨List.replicate 4294967296 0, 4294967295, 15, 4⟩ [0]
      = .done ⟨true, ⟨List.replicate 4294967296 0, 1, 15, 4⟩, d, false⟩ := by
  refine ⟨?_, ?_, read_cursor_wraps _ (List.length_replicate _ _) 0⟩
  · rw [List.length_replicate]; norm_num
  · rw [List.length_replicate]; decide


/-- Splitting a write when the addition of line 48 does not wrap: for any encoder over
fewer than `2 ^ 32` channels with `bits_written + len(a ++ c) * 8 < 2 ^ 32`, if one
`write (a ++ c)` succeeds, then `write a` and then `write c` both succeed (given
`8 / b * len` loop steps each) and leave the encoder that the single write leaves. -/
theorem write_split (b : Nat) (enc : ImageEncoder) (a c : List Nat) (f f1 f2 : Nat)
    (e : ImageEncoder) (hb : b = 1 ∨ b = 2 ∨ b = 4) (hbe : enc.bits_per_channel = b)
    (hC : enc.channels.length < 2 ^ 32) (ha : ∀ x ∈ a, x < 256) (hc : ∀ x ∈ c, x < 256)
    (hnw : enc.bits_written + (a ++ c).length * 8 < 2 ^ 32)
    (hw : write f enc (a ++ c) = .done (true, e))
    (hf1 : 8 / b * a.length ≤ f1) (hf2 : 8 / b * c.length ≤ f2) :
    ∃ e1, write f1 enc a = .done (true, e1) ∧ write f2 e1 c = .done (true, e) := by
  have hbg := groups_cases b hb
  have hac : ∀ x ∈ a ++ c, x < 256 := by
    intro x hx
    rcases List.mem_append.1 hx with h | h
    · exact ha x h
    · exact hc x h
  have hsmall : (a ++ c).length * 8 < 2 ^ 32 := by omega
  obtain ⟨hcap, hfit, he⟩ := write_true_small b hb f enc (a ++ c) e hbe hC hac hsmall hw
  rw [List.length_append] at hsmall hcap hfit he hnw
  rw [Nat.mod_eq_of_lt hnw] at hcap
  have hfit2 : (a.length = 0 ∧ c.length = 0) ∨
      enc.current_channel_index + 8 / b * (a.length + c.length) ≤ enc.channels.length := by
    rcases hfit with h | h
    · left
      have := congrArg List.length h
      simp only [List.length_append, List.length_nil] at this
      omega
    · right; exact h
  rw [Nat.mul_add] at hfit2
  have hna : a.length % 2 ^ 29 = a.length := Nat.mod_eq_of_lt (by omega)
  have hnc : c.length % 2 ^ 29 = c.length := Nat.mod_eq_of_lt (by omega)
  have hma : (enc.bits_written + a.length * 8) % 2 ^ 32 = enc.bits_written + a.length * 8 :=
    Nat.mod_eq_of_lt (by omega)
  -- the write of `a`
  have hw1 := (write_accepted b hb f1 enc a hbe hC ha (by rw [hma]; omega)).1
    (by
      rw [hna]
      rcases hfit2 with h | h
      · left; exact h.1
      · right; omega)
    (by rw [hna]; exact hf1)
  rw [writeResult_small enc a (by omega)] at hw1
  -- the write of `c`
  have hw2 := (write_accepted b hb f2
    { enc with
      channels :=
        putBytes enc.mask enc.bits_per_channel a enc.channels enc.current_channel_index
      current_channel_index :=
        enc.current_channel_index + 8 / enc.bits_per_channel * a.length
      bits_written := (enc.bits_written + a.length * 8) % 2 ^ 32 } c hbe
    (by simp only [putBytes_length]; exact hC) hc (by
      simp only
      rw [hma, Nat.mod_eq_of_lt (by omega)]; omega)).1
    (by
      simp only [putBytes_length]
      rw [hnc, hbe]
      rcases hfit2 with h | h
      · left; exact h.2
      · right; omega)
    (by rw [hnc]; exact hf2)
  rw [writeResult_small _ c (by omega)] at hw2
  refine ⟨_, hw1, ?_⟩
  rw [hw2, he]
  simp only [hbe, putBytes_append, Nat.mul_add, Nat.add_assoc]
  congr 3
  omega

/-- In a state reached from a fresh encoder by successful writes, with the capacity
inside 32 bits, a `write` of fewer than `2 ^ 29` bytes that succeeds can be split: the
write of a first part `a` and then of the rest `c` both succeed (given `8 / b * len` loop
steps each) and leave the encoder that the single write leaves. -/
theorem write_split_reachable (b : Nat) (chans : List Nat) (s : ImageEncoder)
    (a c : List Nat) (f f1 f2 : Nat) (e : ImageEncoder)
    (hb : b = 1 ∨ b = 2 ∨ b = 4) (hCb : chans.length * b < 2 ^ 32)
    (hs : Reachable chans b s) (ha : ∀ x ∈ a, x < 256) (hc : ∀ x ∈ c, x < 256)
    (hsmall : (a ++ c).length * 8 < 2 ^ 32)
    (hw : write f s (a ++ c) = .done (true, e))
    (hf1 : 8 / b * a.length ≤ f1) (hf2 : 8 / b * c.length ≤ f2) :
    ∃ e1, write f1 s a = .done (true, e1) ∧ write f2 e1 c = .done (true, e) := by
  have hbg := groups_cases b hb
  obtain ⟨h1, h2, h3, h4, h5, h6⟩ := Reachable.invariant chans b hb hCb s hs
  have hC : s.channels.length < 2 ^ 32 := by
    rw [h3]; rcases hb with rfl | rfl | rfl <;> omega
  have hac : ∀ x ∈ a ++ c, x < 256 := by
    intro x hx
    rcases List.mem_append.1 hx with h | h
    · exact ha x h
    · exact hc x h
  obtain ⟨hcap, hfit, he⟩ := write_true_small b hb f s (a ++ c) e h1 hC hac hsmall hw
  rw [List.length_append] at hsmall hcap hfit he
  have hfit2 : (a.length = 0 ∧ c.length = 0) ∨
      s.current_channel_index + 8 / b * (a.length + c.length) ≤ chans.length := by
    rcases hfit with h | h
    · left
      have := congrArg List.length h
      simp only [List.length_append, List.length_nil] at this
      omega
    · right; rw [← h3]; exact h
  rw [Nat.mul_add] at hfit2
  have hna : a.length % 2 ^ 29 = a.length := Nat.mod_eq_of_lt (by omega)
  have hnc : c.length % 2 ^ 29 = c.length := Nat.mod_eq_of_lt (by omega)
  -- the write of `a`
  have hw1 := (write_accepted b hb f1 s a h1 hC ha (by
    rw [h4, h5]
    rw [h4, h5] at hcap
    rcases hbg with ⟨rfl, h8⟩ | ⟨rfl, h8⟩ | ⟨rfl, h8⟩ <;> (rw [h8] at hfit2; omega))).1
    (by
      rw [hna, h3]
      rcases hfit2 with h | h
      · left; exact h.1
      · right; omega)
    (by rw [hna]; exact hf1)
  rw [writeResult_small s a (by omega)] at hw1
  -- the write of `c`
  have hw2 := (write_accepted b hb f2
    { s with
      channels := putBytes s.mask s.bits_per_channel a s.channels s.current_channel_index
      current_channel_index := s.current_channel_index + 8 / s.bits_per_channel * a.length
      bits_written := (s.bits_written + a.length * 8) % 2 ^ 32 } c h1
    (by simp only [putBytes_length]; exact hC) hc (by
      simp only
      rw [h4, h5]
      rw [h4, h5] at hcap
      rcases hbg with ⟨rfl, h8⟩ | ⟨rfl, h8⟩ | ⟨rfl, h8⟩ <;> (rw [h8] at hfit2; omega))).1
    (by
      simp only [putBytes_length]
      rw [hnc, h3, h1]
      rcases hfit2 with h | h
      · left; exact h.2
      · right; omega)
    (by rw [hnc]; exact hf2)
  rw [writeResult_small _ c (by omega)] at hw2
  refine ⟨_, hw1, ?_⟩
  rw [hw2, he]
  simp only [h1, putBytes_append, Nat.mul_add, Nat.add_assoc]
  congr 3
  omega


/-- C10 (code at the failing input): for `bits_per_channel` `b` in {1, 2, 4}, whenever the
addition of line 48 does not wrap (`bits_written + len(a ++ c) * 8 < 2 ^ 32`, on fewer
than `2 ^ 32` channels) and one `write (a ++ c)` succeeds, `write a` and then `write c`
both succeed and leave exactly the encoder of the single write; in a state reached from a
fresh encoder by successful writes, with `C * b < 2 ^ 32`, that is so for every
`len(a ++ c) * 8 < 2 ^ 32`.  At `len(a ++ c) = 2 ^ 29` the claim fails: on a fresh encoder
over eight zero channels at two bits per channel (capacity `16`), with `a` of `2 ^ 29 - 1`
bytes and `c = [0]`, the single `write (a ++ c)` returns success for every step budget
(its `2 ^ 32` bits wrap `bits_written` to `0`) and writes nothing, while `write a` returns
failure with `bits_written = 2 ^ 32 - 8`. -/
theorem C10_cumulative_cursor_wraps :
    (∀ (b : Nat) (enc : ImageEncoder) (a c : List Nat) (f f1 f2 : Nat) (e : ImageEncoder),
      (b = 1 ∨ b = 2 ∨ b = 4) → enc.bits_per_channel = b → enc.channels.length < 2 ^ 32 →
      (∀ x ∈ a, x < 256) → (∀ x ∈ c, x < 256) →
      enc.bits_written + (a ++ c).length * 8 < 2 ^ 32 →
      write f enc (a ++ c) = .done (true, e) →
      8 / b * a.length ≤ f1 → 8 / b * c.length ≤ f2 →
      ∃ e1, write f1 enc a = .done (true, e1) ∧ write f2 e1 c = .done (true, e)) ∧
    (∀ (b : Nat) (chans : List Nat) (s : ImageEncoder) (a c : List Nat) (f f1 f2 : Nat)
        (e : ImageEncoder),
      (b = 1 ∨ b = 2 ∨ b = 4) → chans.length * b < 2 ^ 32 → Reachable chans b s →
      (∀ x ∈ a, x < 256) → (∀ x ∈ c, x < 256) → (a ++ c).length * 8 < 2 ^ 32 →
      write f s (a ++ c) = .done (true, e) →
      8 / b * a.length ≤ f1 → 8 / b * c.length ≤ f2 →
      ∃ e1, write f1 s a = .done (true, e1) ∧ write f2 e1 c = .done (true, e)) ∧
    (Reachable (List.replicate 8 0) 2 (create_image_encoder (List.replicate 8 0) 2) ∧
      (∀ x ∈ List.replicate 536870911 0 ++ [0], x < 256) ∧
      (List.replicate 536870911 0 ++ [0]).length = 536870912 ∧
      (∀ f, write f (create_image_encoder (List.replicate 8 0) 2)
          (List.replicate 536870911 0 ++ [0])
        = .done (true, create_image_encoder (List.replicate 8 0) 2)) ∧
      (∀ f, write f (create_image_encoder (List.replicate 8 0) 2)
          (List.replicate 536870911 0)
        = .done (false, ⟨List.replicate 8 0, 0, 3, 2, 16, 4294967288⟩))) := by
  refine ⟨?_, ?_, Reachable.fresh, ?_, ?_, fun f => ?_, fun f => ?_⟩
  · intro b enc a c f f1 f2 e hb hbe hC ha hc hnw hw hf1 hf2
    exact write_split b enc a c f f1 f2 e hb hbe hC ha hc hnw hw hf1 hf2
  · intro b chans s a c f f1 f2 e hb hCb hs ha hc hsmall hw hf1 hf2
    exact write_split_reachable b chans s a c f f1 f2 e hb hCb hs ha hc hsmall hw hf1 hf2
  · intro x hx
    rcases List.mem_append.1 hx with h | h
    · rw [List.eq_of_mem_replicate h]; decide
    · rw [List.mem_singleton.1 h]; decide
  · rw [List.length_append, List.length_replicate]; rfl
  · exact write_wrapped_length _ _ 2 (by
      rw [List.length_append, List.length_replicate]; rfl) f
  · exact write_refused_long _ _ (List.length_replicate _ _) (List.length_replicate _ _) f

/-- C10 (witness): from the state reached by writing `[9]` on a fresh encoder over
sixteen zero channels at two bits per channel, `write [177]` then `write [42]` leave the
encoder that `write [177, 42]` leaves. -/
theorem C10_cumulative_cursor_wraps_witness :
    (∀ x ∈ [177], x < 256) ∧ (∀ x ∈ [42], x < 256) ∧
    write 8 ⟨[1, 2, 0, 0, 0, 0, 0, 0, 0, 0, 0, 0, 0, 0, 0, 0], 4, 3, 2, 32, 8⟩ ([177] ++ [42])
      = .done (true, ⟨[1, 2, 0, 0, 1, 0, 3, 2, 2, 2, 2, 0, 0, 0, 0, 0], 12, 3, 2, 32, 24⟩) ∧
    ∃ e1, write 4 ⟨[1, 2, 0, 0, 0, 0, 0, 0, 0, 0, 0, 0, 0, 0, 0, 0], 4, 3, 2, 32, 8⟩ [177]
        = .done (true, e1) ∧
      write 4 e1 [42]
        = .done (true, ⟨[1, 2, 0, 0, 1, 0, 3, 2, 2, 2, 2, 0, 0, 0, 0, 0], 12, 3, 2, 32, 24⟩) :=
  ⟨by decide, by decide, by decide,
    C10_cumulative_cursor_wraps.2.1 2 (List.replicate 16 0)
      ⟨[1, 2, 0, 0, 0, 0, 0, 0, 0, 0, 0, 0, 0, 0, 0, 0], 4, 3, 2, 32, 8⟩ [177] [42] 8 4 4
      ⟨[1, 2, 0, 0, 1, 0, 3, 2, 2, 2, 2, 0, 0, 0, 0, 0], 12, 3, 2, 32, 24⟩
      (by decide) (by simp)
      (Reachable.step (create_image_encoder (List.replicate 16 0) 2) _ 4 [9] Reachable.fresh
        (by decide) (by decide))
      (by decide) (by decide) (by decide) (by decide) (by decide) (by decide)⟩

/-- What the `-b` case of the argument loop does with the value `parsed` that `parse_u64`
gives: it goes on with `parsed % 2 ^ 32` as `bits_per_channel` when that is `1`, `2` or
`4`, and reports an invalid bit count otherwise. -/
theorem argument_loop_bits (parse_u64 : String → Option Nat) (value : String)
    (rest : List String) (settings : Settings) (parsed : Nat)
    (h : parse_u64 value = some parsed) :
    argument_loop parse_u64 ("-b" :: value :: rest) settings =
      if parsed % 2 ^ 32 = 1 ∨ parsed % 2 ^ 32 = 2 ∨ parsed % 2 ^ 32 = 4 then
        argument_loop parse_u64 rest { settings with bits_per_channel := parsed % 2 ^ 32 }
      else .error .invalid_bit_count := by
  have e1 : ¬ ("-b" = "-i") := by decide
  have e2 : ¬ ("-b" = "-d") := by decide
  rw [argument_loop]
  simp only [e1, e2, if_true, if_false, h]
  by_cases hv : parsed % 2 ^ 32 = 1 ∨ parsed % 2 ^ 32 = 2 ∨ parsed % 2 ^ 32 = 4
  · rw [if_pos hv, if_neg (by omega)]
  · rw [if_neg hv, if_pos (by omega)]

/-- When the argument loop ends with a message, `tl_main` returns `1` with that message:
it reaches neither branch, so no encoder and no decoder is constructed. -/
theorem tl_main_rejected (host : Host) (fuel : Nat) (arguments : List String)
    (message : Message)
    (h : argument_loop host.parse_u64 (arguments.drop 1) ⟨none, none, 2, false⟩
      = .error message) :
    tl_main host fuel arguments = .done (.failed message) := by
  simp only [tl_main, h]
/-- C11 (code at the failing input): the `-b` case of the argument loop tests the parsed
64-bit value `v` only after line 166 has narrowed it to 32 bits: it goes on with
`bits_per_channel = v mod 2 ^ 32` when that is `1`, `2` or `4` and reports an invalid bit
count otherwise, and a message of the argument loop makes `tl_main` return `1` before
either branch constructs a codec.  So `v = 2 ^ 32 + 1 = 4294967297`, which is not one of
`1`, `2`, `4`, is accepted: the argument loop leaves `bits_per_channel = 1`, and `tl_main`
goes on to the encode branch, which writes the header of an empty data file into the
lowest bit of the first 32 of 33 channels of value `255` (an image of eleven pixels), as
the encoder does at one bit per channel. -/
theorem C11_wide_bit_count_accepted :
    (∀ (parse_u64 : String → Option Nat) (value : String) (rest : List String)
        (settings : Settings) (v : Nat), parse_u64 value = some v →
      argument_loop parse_u64 ("-b" :: value :: rest) settings =
        if v % 2 ^ 32 = 1 ∨ v % 2 ^ 32 = 2 ∨ v % 2 ^ 32 = 4 then
          argument_loop parse_u64 rest { settings with bits_per_channel := v % 2 ^ 32 }
        else .error .invalid_bit_count) ∧
    (∀ (host : Host) (fuel : Nat) (arguments : List String) (message : Message),
      argument_loop host.parse_u64 (arguments.drop 1) ⟨none, none, 2, false⟩
        = .error message →
      tl_main host fuel arguments = .done (.failed message)) ∧
    ((4294967297 : Nat) < 2 ^ 64 ∧ ¬ ((4294967297 : Nat) = 1 ∨ (4294967297 : Nat) = 2 ∨
      (4294967297 : Nat) = 4)) ∧
    argument_loop (fun _ => some 4294967297) ["-b", "4294967297", "-i", "i", "-d", "d"]
      ⟨none, none, 2, false⟩ = .ok ⟨some "i", some "d", 1, false⟩ ∧
    tl_main ⟨fun _ => some 4294967297, fun _ => some [], fun _ => some (List.replicate 33 255),
        fun n => List.replicate n 0, fun _ => true⟩ 32
        ["hnc", "-b", "4294967297", "-i", "i", "-d", "d"]
      = .done (.encoded (List.replicate 32 254 ++ [255])) ∧
    encode_branch 32 (List.replicate 33 255) 1 []
      = .done (some (List.replicate 32 254 ++ [255])) :=
  ⟨argument_loop_bits, tl_main_rejected, by decide, by rfl, by decide, by decide⟩

/-- C11 (witness): the `-b` case at the parsed values `4` (accepted) and `3` (rejected
with the invalid bit count message). -/
theorem C11_wide_bit_count_accepted_witness :
    argument_loop (fun _ => some 4) ["-b", "4"] ⟨none, none, 2, false⟩
      = (if 4 % 2 ^ 32 = 1 ∨ 4 % 2 ^ 32 = 2 ∨ 4 % 2 ^ 32 = 4 then
          argument_loop (fun _ => some 4) []
            { (⟨none, none, 2, false⟩ : Settings) with bits_per_channel := 4 % 2 ^ 32 }
        else .error .invalid_bit_count) ∧
    argument_loop (fun _ => some 3) ["-b", "3"] ⟨none, none, 2, false⟩
      = .error .invalid_bit_count :=
  ⟨C11_wide_bit_count_accepted.1 (fun _ => some 4) "4" [] ⟨none, none, 2, false⟩ 4 rfl,
    by rfl⟩

/-- Byte `j` of the bytes that the loop of `read` assembles from channel `k` on is the
byte assembled from the `8 / b` channels from `k + j * (8 / b)` on. -/
theorem getBytes_getD (m b : Nat) :
    ∀ (n : Nat) (chans : List Nat) (k j : Nat), j < n →
      (getBytes m b n chans k)[j]? = some (getGroups m b (8 / b) chans (k + j * (8 / b)) 0 0) := by
  intro n
  induction n with
  | zero => intro chans k j hj; omega
  | succ n ih =>
    intro chans k j hj
    rw [getBytes_succ]
    cases j with
    | zero => simp
    | succ j =>
      rw [List.getElem?_cons_succ, ih chans (k + 8 / b) j (by omega)]
      congr 2
      rw [Nat.add_mul, Nat.one_mul]; omega

/-- The terms of the reassembly formula depend on the channels through `channel AND m`
alone. -/
theorem shiftedGroups_congr (m b : Nat) (c1 c2 : List Nat) (k1 j1 k2 j2 : Nat)
    (h : ∀ g < 8 / b,
      c1.getD (k1 + j1 * (8 / b) + g) 0 &&& m = c2.getD (k2 + j2 * (8 / b) + g) 0 &&& m) :
    shiftedGroups m b c1 k1 j1 = shiftedGroups m b c2 k2 j2 := by
  unfold shiftedGroups
  apply List.map_congr_left
  intro g hg
  rw [h g (List.mem_range.mp hg)]

set_option maxRecDepth 1000000 in
/-- The loop of `read`, the OR formula and the sum formula agree on eight one-bit groups,
given as the bits of a byte. -/
theorem or_sum_groups_bits :
    ∀ v < 256,
      getGroups 1 1 8 [v % 2, v / 2 % 2, v / 4 % 2, v / 8 % 2, v / 16 % 2, v / 32 % 2,
          v / 64 % 2, v / 128 % 2] 0 0 0
        = orOfGroups 1 1 [v % 2, v / 2 % 2, v / 4 % 2, v / 8 % 2, v / 16 % 2, v / 32 % 2,
          v / 64 % 2, v / 128 % 2] 0 0 ∧
      orOfGroups 1 1 [v % 2, v / 2 % 2, v / 4 % 2, v / 8 % 2, v / 16 % 2, v / 32 % 2,
          v / 64 % 2, v / 128 % 2] 0 0
        = sumOfGroups 1 1 [v % 2, v / 2 % 2, v / 4 % 2, v / 8 % 2, v / 16 % 2, v / 32 % 2,
          v / 64 % 2, v / 128 % 2] 0 0 := by
  decide

/-- The loop of `read`, the OR formula and the sum formula agree on eight one-bit
groups. -/
theorem or_sum_groups_1 (x0 x1 x2 x3 x4 x5 x6 x7 : Nat) (h0 : x0 < 2) (h1 : x1 < 2)
    (h2 : x2 < 2) (h3 : x3 < 2) (h4 : x4 < 2) (h5 : x5 < 2) (h6 : x6 < 2) (h7 : x7 < 2) :
    getGroups 1 1 8 [x0, x1, x2, x3, x4, x5, x6, x7] 0 0 0
        = orOfGroups 1 1 [x0, x1, x2, x3, x4, x5, x6, x7] 0 0 ∧
      orOfGroups 1 1 [x0, x1, x2, x3, x4, x5, x6, x7] 0 0
        = sumOfGroups 1 1 [x0, x1, x2, x3, x4, x5, x6, x7] 0 0 := by
  obtain ⟨v, hv⟩ : ∃ v, v = x0 + 2 * x1 + 4 * x2 + 8 * x3 + 16 * x4 + 32 * x5 + 64 * x6
      + 128 * x7 := ⟨_, rfl⟩
  have hl : [x0, x1, x2, x3, x4, x5, x6, x7] = [v % 2, v / 2 % 2, v / 4 % 2, v / 8 % 2,
      v / 16 % 2, v / 32 % 2, v / 64 % 2, v / 128 % 2] := by
    simp only [List.cons.injEq, and_true]
    refine ⟨?_, ?_, ?_, ?_, ?_, ?_, ?_, ?_⟩ <;> omega
  rw [hl]
  exact or_sum_groups_bits v (by omega)

set_option maxRecDepth 1000000 in
/-- The loop of `read`, the OR formula and the sum formula agree on four two-bit
groups. -/
theorem or_sum_groups_2 :
    ∀ x0 < 4, ∀ x1 < 4, ∀ x2 < 4, ∀ x3 < 4,
      getGroups 3 2 4 [x0, x1, x2, x3] 0 0 0 = orOfGroups 3 2 [x0, x1, x2, x3] 0 0 ∧
        orOfGroups 3 2 [x0, x1, x2, x3] 0 0 = sumOfGroups 3 2 [x0, x1, x2, x3] 0 0 := by
  decide

set_option maxRecDepth 1000000 in
/-- The loop of `read`, the OR formula and the sum formula agree on two four-bit
groups. -/
theorem or_sum_groups_4 :
    ∀ x0 < 16, ∀ x1 < 16,
      getGroups 15 4 2 [x0, x1] 0 0 0 = orOfGroups 15 4 [x0, x1] 0 0 ∧
        orOfGroups 15 4 [x0, x1] 0 0 = sumOfGroups 15 4 [x0, x1] 0 0 := by
  decide

/-- The byte that the loop of `read` assembles from the `8 / b` channels from
`k + j * (8 / b)` on is the value of the reassembly formula, with OR or with a sum. -/
theorem getGroups_formula (b : Nat) (hb : b = 1 ∨ b = 2 ∨ b = 4) (chans : List Nat)
    (k j : Nat) :
    getGroups (maskOf b) b (8 / b) chans (k + j * (8 / b)) 0 0
        = orOfGroups (maskOf b) b chans k j ∧
      orOfGroups (maskOf b) b chans k j = sumOfGroups (maskOf b) b chans k j := by
  have hlt : ∀ (x m : Nat), x &&& m < m + 1 := fun x m => Nat.lt_succ_of_le Nat.and_le_right
  have hidem : ∀ (x m : Nat), (x &&& m) &&& m = x &&& m := by
    intro x m; rw [Nat.land_assoc, Nat.and_self]
  rcases hb with rfl | rfl | rfl
  · have h := or_sum_groups_1
      (chans.getD (k + j * 8 + 0) 0 &&& 1) (chans.getD (k + j * 8 + 1) 0 &&& 1)
      (chans.getD (k + j * 8 + 2) 0 &&& 1) (chans.getD (k + j * 8 + 3) 0 &&& 1)
      (chans.getD (k + j * 8 + 4) 0 &&& 1) (chans.getD (k + j * 8 + 5) 0 &&& 1)
      (chans.getD (k + j * 8 + 6) 0 &&& 1) (chans.getD (k + j * 8 + 7) 0 &&& 1)
      (hlt _ _) (hlt _ _) (hlt _ _) (hlt _ _) (hlt _ _) (hlt _ _) (hlt _ _) (hlt _ _)
    have hg : ∀ s < 8, chans.getD (k + j * 8 + s) 0 &&& 1 =
        [chans.getD (k + j * 8 + 0) 0 &&& 1, chans.getD (k + j * 8 + 1) 0 &&& 1,
          chans.getD (k + j * 8 + 2) 0 &&& 1, chans.getD (k + j * 8 + 3) 0 &&& 1,
          chans.getD (k + j * 8 + 4) 0 &&& 1, chans.getD (k + j * 8 + 5) 0 &&& 1,
          chans.getD (k + j * 8 + 6) 0 &&& 1, chans.getD (k + j * 8 + 7) 0 &&& 1].getD
            (0 + s) 0 &&& 1 := by
      intro s hs
      have : s = 0 ∨ s = 1 ∨ s = 2 ∨ s = 3 ∨ s = 4 ∨ s = 5 ∨ s = 6 ∨ s = 7 := by omega
      rcases this with rfl | rfl | rfl | rfl | rfl | rfl | rfl | rfl <;>
        simp [hidem]
    have e8 : 8 / 1 = 8 := by norm_num
    have c1 := getGroups_congr 1 1 8 chans _ (k + j * 8) 0 0 0 hg
    have c2 : shiftedGroups 1 1 chans k j = shiftedGroups 1 1 _ 0 0 :=
      shiftedGroups_congr 1 1 chans _ k j 0 0 (by
        rw [e8]; intro g hg1; rw [Nat.zero_mul, Nat.add_zero]; exact hg g hg1)
    simp only [maskOf, e8]
    unfold orOfGroups sumOfGroups at h ⊢
    rw [c1, c2]
    exact h
  · have h := or_sum_groups_2
      (chans.getD (k + j * 4 + 0) 0 &&& 3) (hlt _ _) (chans.getD (k + j * 4 + 1) 0 &&& 3)
      (hlt _ _) (chans.getD (k + j * 4 + 2) 0 &&& 3) (hlt _ _)
      (chans.getD (k + j * 4 + 3) 0 &&& 3) (hlt _ _)
    have hg : ∀ s < 4, chans.getD (k + j * 4 + s) 0 &&& 3 =
        [chans.getD (k + j * 4 + 0) 0 &&& 3, chans.getD (k + j * 4 + 1) 0 &&& 3,
          chans.getD (k + j * 4 + 2) 0 &&& 3, chans.getD (k + j * 4 + 3) 0 &&& 3].getD
            (0 + s) 0 &&& 3 := by
      intro s hs
      have : s = 0 ∨ s = 1 ∨ s = 2 ∨ s = 3 := by omega
      rcases this with rfl | rfl | rfl | rfl <;> simp [hidem]
    have e8 : 8 / 2 = 4 := by norm_num
    have c1 := getGroups_congr 3 2 4 chans _ (k + j * 4) 0 0 0 hg
    have c2 : shiftedGroups 3 2 chans k j = shiftedGroups 3 2 _ 0 0 :=
      shiftedGroups_congr 3 2 chans _ k j 0 0 (by
        rw [e8]; intro g hg1; rw [Nat.zero_mul, Nat.add_zero]; exact hg g hg1)
    simp only [maskOf, e8]
    unfold orOfGroups sumOfGroups at h ⊢
    rw [c1, c2]
    exact h
  · have h := or_sum_groups_4
      (chans.getD (k + j * 2 + 0) 0 &&& 15) (hlt _ _) (chans.getD (k + j * 2 + 1) 0 &&& 15)
      (hlt _ _)
    have hg : ∀ s < 2, chans.getD (k + j * 2 + s) 0 &&& 15 =
        [chans.getD (k + j * 2 + 0) 0 &&& 15, chans.getD (k + j * 2 + 1) 0 &&& 15].getD
            (0 + s) 0 &&& 15 := by
      intro s hs
      have : s = 0 ∨ s = 1 := by omega
      rcases this with rfl | rfl <;> simp [hidem]
    have e8 : 8 / 4 = 2 := by norm_num
    have c1 := getGroups_congr 15 4 2 chans _ (k + j * 2) 0 0 0 hg
    have c2 : shiftedGroups 15 4 chans k j = shiftedGroups 15 4 _ 0 0 :=
      shiftedGroups_congr 15 4 chans _ k j 0 0 (by
        rw [e8]; intro g hg1; rw [Nat.zero_mul, Nat.add_zero]; exact hg g hg1)
    simp only [maskOf, e8]
    unfold orOfGroups sumOfGroups at h ⊢
    rw [c1, c2]
    exact h

/-- A `read` that returns started with its cursor inside the buffer or at its end. -/
theorem read_done_le (f : Nat) (dec : ImageDecoder) (dst : List Nat) (r : ReadResult)
    (h : read f dec dst = .done r) : dec.current_channel_index ≤ dec.channels.length := by
  unfold read at h
  cases f with
  | zero => simp [readLoop] at h
  | succ f =>
    by_cases hend : dec.current_channel_index = dec.channels.length
    · omega
    · cases hch : dec.channels[dec.current_channel_index]? with
      | none =>
        rw [readLoop_step_out _ _ _ _ _ _ hend hch] at h
        cases h
      | some ch =>
        by_contra hgt
        rw [List.getElem?_eq_none (by omega)] at hch
        cases hch

/-- The byte that the wrapped read of `read_cursor_wraps` leaves: its low group is taken
from the last channel and its high group from channel `0`. -/
theorem read_cursor_wraps_value (chans : List Nat) (hlen : chans.length = 4294967296)
    (d0 x y : Nat) (hx : chans.getD 4294967295 0 = x) (hy : chans.getD 0 0 = y) :
    read 2 ⟨chans, 4294967295, 15, 4⟩ [d0]
      = .done ⟨true, ⟨chans, 1, 15, 4⟩,
          [(((0 ||| (x &&& 15) <<< 0) % 256) ||| (y &&& 15) <<< 4) % 256], false⟩ := by
  have e1 : (4294967295 + 1) % 2 ^ 32 = 0 := by norm_num
  have e2 : (0 + 4) % 256 = 4 := by norm_num
  have e3 : (0 + 1) % 2 ^ 32 = 1 := by norm_num
  have s0 : read 2 ⟨chans, 4294967295, 15, 4⟩ [d0]
      = readLoop 2 ⟨chans, 4294967295, 15, 4⟩ [0] false 0 0 := by
    simp [read, storeDest]
  have s1 := readLoop_step_more_mk 1 chans 4294967295 15 4 [0] false 0 0 _
    (by rw [hlen]; norm_num) (getElem?_of_lt chans 4294967295 (by rw [hlen]; norm_num))
    (by norm_num) (by simp)
  rw [e1, e2, hx] at s1
  have s2 := readLoop_step_last_mk 0 chans 0 15 4
    ([0].set 0 (([0].getD 0 0 ||| (x &&& 15) <<< 0) % 256)) false 0 4 _
    (by rw [hlen]; norm_num) (getElem?_of_lt chans 0 (by rw [hlen]; norm_num))
    (by norm_num) (by simp)
  rw [e3, hy] at s2
  rw [s0, s1, s2]
  simp

/-- On a buffer of `2 ^ 32` channels the reassembly formula for the byte at cursor
`2 ^ 32 - 1` (four bits per channel) names the channel `2 ^ 32`, which does not exist,
and has the value of the low group alone. -/
theorem orOfGroups_past_end (chans : List Nat) (hlen : chans.length = 4294967296)
    (x : Nat) (hx : chans.getD 4294967295 0 = x) :
    orOfGroups 15 4 chans 4294967295 0 = (0 ||| (x &&& 15) <<< 0) ||| 0 := by
  have e8 : 8 / 4 = 2 := by norm_num
  have hr : List.range 2 = [0, 1] := by decide
  have h1 : chans.getD 4294967296 0 = 0 := by
    rw [List.getD_eq_getElem?_getD, List.getElem?_eq_none (by omega)]; rfl
  unfold orOfGroups shiftedGroups
  rw [e8, hr]
  simp only [List.map_cons, List.map_nil, List.foldl_cons, List.foldl_nil, Nat.zero_mul,
    Nat.add_zero, Nat.one_mul]
  rw [show 4294967295 + 1 = 4294967296 from rfl, h1, hx]
  simp

/-- C12 (amended): for `bits_per_channel` `b` in {1, 2, 4} with mask `m`, a channel
buffer of fewer than `2 ^ 32` channels, any decoder cursor `k` and any destination of
`n ≥ 1` bytes with any previous contents: if `read` returns success, then the destination
has `n` bytes, the channels `k .. k + n * (8 / b) - 1` all exist, each destination byte
`j < n` is the bitwise OR over `g < 8 / b` of `(channel[k + j * (8 / b) + g] AND m) << (g * b)`,
which is also their sum, and the channel buffer is unchanged. -/
theorem C12_read_formula (b : Nat) (dec : ImageDecoder) (dst : List Nat) (f : Nat)
    (r : ReadResult) (hb : b = 1 ∨ b = 2 ∨ b = 4) (hbe : dec.bits_per_channel = b)
    (hm : dec.mask = maskOf b) (hC : dec.channels.length < 2 ^ 32) (hn : 0 < dst.length)
    (hr : read f dec dst = .done r) (hok : r.ok = true) :
    r.destination.length = dst.length ∧
    dec.current_channel_index + dst.length * (8 / b) ≤ dec.channels.length ∧
    (∀ j < dst.length,
      r.destination[j]? =
          some (orOfGroups (maskOf b) b dec.channels dec.current_channel_index j) ∧
        orOfGroups (maskOf b) b dec.channels dec.current_channel_index j =
          sumOfGroups (maskOf b) b dec.channels dec.current_channel_index j) ∧
    r.decoder.channels = dec.channels := by
  have hle := read_done_le f dec dst r hr
  have hd := read_done b hb f dec dst r hbe hC hn hle hr
  by_cases hfit : dec.current_channel_index + 8 / b * dst.length ≤ dec.channels.length
  · have e := hd.1 hfit
    subst e
    refine ⟨?_, ?_, ?_, rfl⟩
    · simp only [getBytes_length]
    · rw [Nat.mul_comm]; exact hfit
    · intro j hj
      simp only
      have hf := getGroups_formula b hb dec.channels dec.current_channel_index j
      rw [getBytes_getD _ _ _ _ _ _ hj, hm, hf.1]
      exact ⟨rfl, hf.2⟩
  · have h2 := (hd.2 (by omega)).1
    rw [hok] at h2
    cases h2

/-- C12 (witness): a decoder at cursor `1` over the five channels `7, 241, 240, 243, 242`,
two bits per channel, and a destination holding `99`: `read` succeeds and leaves the byte
`177 = 1 | 0 << 2 | 3 << 4 | 2 << 6 = 1 + 0 + 48 + 128`. -/
theorem C12_read_formula_witness :
    (2 = 1 ∨ 2 = 2 ∨ 2 = 4) ∧
    read 4 ⟨[7, 241, 240, 243, 242], 1, maskOf 2, 2⟩ [99]
      = .done ⟨true, ⟨[7, 241, 240, 243, 242], 5, 3, 2⟩, [177], false⟩ ∧
    orOfGroups (maskOf 2) 2 [7, 241, 240, 243, 242] 1 0 = 177 ∧
    sumOfGroups (maskOf 2) 2 [7, 241, 240, 243, 242] 1 0 = 177 ∧
    ([177].length = [99].length ∧
      1 + [99].length * (8 / 2) ≤ [7, 241, 240, 243, 242].length ∧
      (∀ j < [99].length,
        [177][j]? = some (orOfGroups (maskOf 2) 2 [7, 241, 240, 243, 242] 1 j) ∧
          orOfGroups (maskOf 2) 2 [7, 241, 240, 243, 242] 1 j =
            sumOfGroups (maskOf 2) 2 [7, 241, 240, 243, 242] 1 j) ∧
      [7, 241, 240, 243, 242] = [7, 241, 240, 243, 242]) :=
  ⟨by decide, by decide, by decide, by decide,
    C12_read_formula 2 ⟨[7, 241, 240, 243, 242], 1, maskOf 2, 2⟩ [99] 4
      ⟨true, ⟨[7, 241, 240, 243, 242], 5, 3, 2⟩, [177], false⟩
      (by decide) rfl rfl (by decide) (by decide) (by decide) rfl⟩

/-- C12 (counterexample): a decoder at cursor `k = 2 ^ 32 - 1` over `2 ^ 32` channels of
value `15`, four bits per channel, asked for one byte: `read` succeeds and leaves `255`,
whose high group comes from channel `0` after the 32-bit cursor has wrapped; the channel
`k + 1` of the formula does not exist, and the formula (a missing channel counting as `0`)
gives `15`. -/
theorem C12_counterexample :
    read 2 ⟨List.replicate 4294967296 15, 4294967295, 15, 4⟩ [0]
      = .done ⟨true, ⟨List.replicate 4294967296 15, 1, 15, 4⟩, [255], false⟩ ∧
    (List.replicate 4294967296 15)[4294967295 + 0 * (8 / 4) + 1]? = none ∧
    orOfGroups 15 4 (List.replicate 4294967296 15) 4294967295 0 = 15 ∧
    [255][0]? ≠ some (orOfGroups 15 4 (List.replicate 4294967296 15) 4294967295 0) := by
  have hx : (List.replicate 4294967296 15).getD 4294967295 0 = 15 := by
    rw [List.getD_eq_getElem?_getD, List.getElem?_replicate]; rfl
  have hy : (List.replicate 4294967296 15).getD 0 0 = 15 := by
    rw [List.getD_eq_getElem?_getD, List.getElem?_replicate]; rfl
  have ho := orOfGroups_past_end _ (List.length_replicate _ _) 15 hx
  have hr := read_cursor_wraps_value _ (List.length_replicate _ _) 0 15 15 hx hy
  refine ⟨?_, ?_, ?_, ?_⟩
  · rw [hr]; rfl
  · exact List.getElem?_eq_none (Nat.le_of_eq (by rw [List.length_replicate]))
  · rw [ho]; rfl
  · rw [ho]; decide

/-- A write of `2 ^ 29` bytes (`2 ^ 32` bits) on any encoder whose `bits_written` is within
its capacity: `bits_written` wraps back to its value, the capacity check passes,
`remaining_bits` is `0`, and the call returns `true` with the encoder as it was. -/
theorem write_wrapped_length_any (chans : List Nat) (idx m b av bw : Nat) (data : List Nat)
    (hd : data.length = 536870912) (hbw : bw < 2 ^ 32) (hav : bw ≤ av) (f : Nat) :
    write f ⟨chans, idx, m, b, av, bw⟩ data = .done (true, ⟨chans, idx, m, b, av, bw⟩) := by
  have e0 : (bw + data.length * 8) % 2 ^ 32 = bw := by rw [hd]; omega
  have e1 : (data.length * 8) % 2 ^ 32 = 0 := by rw [hd]; norm_num
  rw [write_accepted_mk f chans idx m b av bw data (by rw [e0]; omega), e0, e1,
    writeLoop_no_bits]

/-- In a reachable state with the capacity inside 32 bits, a `write` of fewer than `2 ^ 29`
bytes that fits returns success. -/
theorem write_fits_reachable (b : Nat) (hb : b = 1 ∨ b = 2 ∨ b = 4) (chans : List Nat)
    (hCb : chans.length * b < 2 ^ 32) (s : ImageEncoder) (hs : Reachable chans b s)
    (B : List Nat) (hB : ∀ x ∈ B, x < 256)
    (hfit : s.current_channel_index * b + B.length * 8 ≤ chans.length * b) (f : Nat)
    (hf : 8 / b * B.length ≤ f) :
    write f s B = .done (true, writeResult s B) := by
  obtain ⟨h1, _, h3, h4, h5, h6⟩ := Reachable.invariant chans b hb hCb s hs
  have hbg := groups_cases b hb
  have hC : s.channels.length < 2 ^ 32 := by
    rw [h3]; rcases hb with rfl | rfl | rfl <;> omega
  have hn : B.length % 2 ^ 29 = B.length := Nat.mod_eq_of_lt (by omega)
  have hcap : ¬ s.available_bits < (s.bits_written + B.length * 8) % 2 ^ 32 := by
    rw [h4, h5, Nat.mod_eq_of_lt (by omega)]; omega
  refine (write_accepted b hb f s B h1 hC hB hcap).1 ?_ (by rw [hn]; exact hf)
  right
  rw [hn, h3]
  rcases hbg with ⟨rfl, h⟩ | ⟨rfl, h⟩ | ⟨rfl, h⟩ <;> (rw [h]; omega)

/-- In a reachable state with the capacity inside 32 bits, a `write` of fewer than `2 ^ 29`
bytes that returns success fits. -/
theorem write_true_reachable (b : Nat) (hb : b = 1 ∨ b = 2 ∨ b = 4) (chans : List Nat)
    (hCb : chans.length * b < 2 ^ 32) (s : ImageEncoder) (hs : Reachable chans b s)
    (B : List Nat) (hB : ∀ x ∈ B, x < 256) (hsmall : B.length * 8 < 2 ^ 32) (f : Nat)
    (e : ImageEncoder) (hw : write f s B = .done (true, e)) :
    s.current_channel_index * b + B.length * 8 ≤ chans.length * b := by
  obtain ⟨h1, _, h3, h4, h5, h6⟩ := Reachable.invariant chans b hb hCb s hs
  have hbg := groups_cases b hb
  have hC : s.channels.length < 2 ^ 32 := by
    rw [h3]; rcases hb with rfl | rfl | rfl <;> omega
  obtain ⟨_, hin, _⟩ := write_true_small b hb f s B e h1 hC hB hsmall hw
  rw [h3] at hin
  rcases hin with h0 | h0
  · rw [h0]
    rcases hb with rfl | rfl | rfl <;> simp <;> omega
  · rcases hbg with ⟨rfl, h⟩ | ⟨rfl, h⟩ | ⟨rfl, h⟩ <;> (rw [h] at h0; omega)

/-- C14 (code at the failing input): for `bits_per_channel` `b` in {1, 2, 4} and a buffer
of `C` channels with `C * b < 2 ^ 32`, every encoder state reached from a fresh encoder
by successful writes has `bits_written = current_channel_index * b ≤ available_bits = C * b`,
and for a byte sequence `B` with `len(B) * 8 < 2 ^ 32` the call `write B` succeeds (given
`8 / b * len(B)` loop steps) exactly when `current_channel_index * b + len(B) * 8 ≤ C * b`.
At `len(B) = 2 ^ 29` the second part fails: in the state reached by writing the byte `9`
on a fresh encoder over sixteen zero channels at two bits per channel (cursor `4`,
`bits_written = 8`, capacity `32`), `write` of `2 ^ 29` bytes returns success for every
step budget and leaves the encoder as it was, although `4 * 2 + 2 ^ 29 * 8 > 16 * 2`. -/
theorem C14_accounting_wraps :
    (∀ (b : Nat) (chans : List Nat) (s : ImageEncoder), (b = 1 ∨ b = 2 ∨ b = 4) →
      chans.length * b < 2 ^ 32 → Reachable chans b s →
      s.bits_written = s.current_channel_index * b ∧
        s.current_channel_index * b ≤ s.available_bits ∧
        s.available_bits = chans.length * b) ∧
    (∀ (b : Nat) (chans : List Nat) (s : ImageEncoder) (B : List Nat),
      (b = 1 ∨ b = 2 ∨ b = 4) → chans.length * b < 2 ^ 32 → Reachable chans b s →
      (∀ x ∈ B, x < 256) → B.length * 8 < 2 ^ 32 →
      (s.current_channel_index * b + B.length * 8 ≤ chans.length * b →
        ∀ f, 8 / b * B.length ≤ f → ∃ e, write f s B = .done (true, e)) ∧
      (∀ f e, write f s B = .done (true, e) →
        s.current_channel_index * b + B.length * 8 ≤ chans.length * b)) ∧
    ((List.replicate 16 0).length * 2 < 2 ^ 32 ∧
      Reachable (List.replicate 16 0) 2
        ⟨[1, 2, 0, 0, 0, 0, 0, 0, 0, 0, 0, 0, 0, 0, 0, 0], 4, 3, 2, 32, 8⟩ ∧
      (∀ x ∈ List.replicate 536870912 0, x < 256) ∧
      (∀ f, write f ⟨[1, 2, 0, 0, 0, 0, 0, 0, 0, 0, 0, 0, 0, 0, 0, 0], 4, 3, 2, 32, 8⟩
          (List.replicate 536870912 0)
        = .done (true, ⟨[1, 2, 0, 0, 0, 0, 0, 0, 0, 0, 0, 0, 0, 0, 0, 0], 4, 3, 2, 32, 8⟩)) ∧
      ¬ (4 * 2 + (List.replicate 536870912 0).length * 8 ≤ (List.replicate 16 0).length * 2)) := by
  refine ⟨?_, ?_, ?_, ?_, ?_, ?_, ?_⟩
  · intro b chans s hb hCb hs
    obtain ⟨_, _, _, h4, h5, h6⟩ := Reachable.invariant chans b hb hCb s hs
    refine ⟨h5, ?_, h4⟩
    rw [h4]
    exact Nat.mul_le_mul_right b h6
  · intro b chans s B hb hCb hs hB hsmall
    exact ⟨fun hfit f hf => ⟨_, write_fits_reachable b hb chans hCb s hs B hB hfit f hf⟩,
      fun f e hw => write_true_reachable b hb chans hCb s hs B hB hsmall f e hw⟩
  · decide
  · exact Reachable.step _ _ 4 [9] Reachable.fresh (by decide) (by decide)
  · intro x hx
    rw [List.eq_of_mem_replicate hx]
    decide
  · intro f
    exact write_wrapped_length_any _ 4 3 2 32 8 _ (List.length_replicate _ _) (by norm_num)
      (by norm_num) f
  · rw [List.length_replicate, List.length_replicate]
    decide

/-- C14 (witness): the invariant and the success criterion in the state reached by
writing the byte `9` on a fresh encoder over sixteen zero channels at two bits per
channel, for the two-byte sequence `177, 42`. -/
theorem C14_accounting_wraps_witness :
    ((8 : Nat) = 4 * 2 ∧ 4 * 2 ≤ 32 ∧ (32 : Nat) = (List.replicate 16 0).length * 2) ∧
    (4 * 2 + [177, 42].length * 8 ≤ (List.replicate 16 0).length * 2 →
      ∀ f, 8 / 2 * [177, 42].length ≤ f →
        ∃ e, write f ⟨[1, 2, 0, 0, 0, 0, 0, 0, 0, 0, 0, 0, 0, 0, 0, 0], 4, 3, 2, 32, 8⟩
          [177, 42] = .done (true, e)) :=
  ⟨C14_accounting_wraps.1 2 (List.replicate 16 0)
      ⟨[1, 2, 0, 0, 0, 0, 0, 0, 0, 0, 0, 0, 0, 0, 0, 0], 4, 3, 2, 32, 8⟩ (by decide)
      (by decide) (Reachable.step _ _ 4 [9] Reachable.fresh (by decide) (by decide)),
    (C14_accounting_wraps.2.1 2 (List.replicate 16 0)
      ⟨[1, 2, 0, 0, 0, 0, 0, 0, 0, 0, 0, 0, 0, 0, 0, 0], 4, 3, 2, 32, 8⟩ [177, 42] (by decide)
      (by decide) (Reachable.step _ _ 4 [9] Reachable.fresh (by decide) (by decide))
      (by decide) (by decide)).1⟩

/-- The loop of `read` on two buffers of equal length whose channels agree under the mask:
the two runs end the same way, with the same result apart from the buffer itself. -/
theorem readLoop_low_bits (m b : Nat) (c1 c2 : List Nat) (hlen : c1.length = c2.length)
    (hlow : ∀ i < c1.length, c1.getD i 0 &&& m = c2.getD i 0 &&& m) :
    ∀ (f idx : Nat) (dst : List Nat) (ovr : Bool) (di bits : Nat),
      readLoop f ⟨c2, idx, m, b⟩ dst ovr di bits =
        (readLoop f ⟨c1, idx, m, b⟩ dst ovr di bits).map (fun r => r.withChannels c2) := by
  intro f
  induction f with
  | zero => intro idx dst ovr di bits; rfl
  | succ f ih =>
    intro idx dst ovr di bits
    by_cases hend : idx = c1.length
    · rw [readLoop_step_end f ⟨c1, idx, m, b⟩ dst ovr di bits hend,
        readLoop_step_end f ⟨c2, idx, m, b⟩ dst ovr di bits (by rw [← hlen]; exact hend)]
      rfl
    · by_cases hlt : idx < c1.length
      · have h1 := readLoop_step f ⟨c1, idx, m, b⟩ dst ovr di bits _ hend
          (getElem?_of_lt c1 idx hlt)
        have h2 := readLoop_step f ⟨c2, idx, m, b⟩ dst ovr di bits _
          (by rw [← hlen]; exact hend) (getElem?_of_lt c2 idx (by rw [← hlen]; exact hlt))
        simp only at h1 h2
        rw [← hlow idx hlt] at h2
        rw [h1, h2]
        by_cases h8 : (bits + b) % 256 = 8
        · rw [if_pos h8, if_pos h8]
          by_cases hd : di + 1 = dst.length
          · rw [if_pos hd, if_pos hd]
            rfl
          · rw [if_neg hd, if_neg hd]
            exact ih _ _ _ _ _
        · rw [if_neg h8, if_neg h8]
          exact ih _ _ _ _ _
      · rw [readLoop_step_out f ⟨c1, idx, m, b⟩ dst ovr di bits hend
            (List.getElem?_eq_none (by simp only; omega)),
          readLoop_step_out f ⟨c2, idx, m, b⟩ dst ovr di bits (by rw [← hlen]; exact hend)
            (List.getElem?_eq_none (by simp only; omega))]
        rfl

/-- On a buffer of fewer than `2 ^ 32` channels the loop of `read` returns within
`C - k + 1` steps, whatever the destination and the bits per channel. -/
theorem readLoop_returns :
    ∀ (f : Nat) (dec : ImageDecoder) (dst : List Nat) (ovr : Bool) (di bits : Nat),
      dec.channels.length < 2 ^ 32 → dec.current_channel_index ≤ dec.channels.length →
      dec.channels.length - dec.current_channel_index < f →
      ∃ r, readLoop f dec dst ovr di bits = .done r := by
  intro f
  induction f with
  | zero => intro dec dst ovr di bits _ _ hf; omega
  | succ f ih =>
    intro dec dst ovr di bits hC hk hf
    by_cases hend : dec.current_channel_index = dec.channels.length
    · exact ⟨_, readLoop_step_end f dec dst ovr di bits hend⟩
    · have hlt : dec.current_channel_index < dec.channels.length := by omega
      have e1 : (dec.current_channel_index + 1) % 2 ^ 32 = dec.current_channel_index + 1 :=
        Nat.mod_eq_of_lt (by omega)
      rw [readLoop_step f dec dst ovr di bits _ hend (getElem?_of_lt _ _ hlt), e1]
      by_cases h8 : (bits + dec.bits_per_channel) % 256 = 8
      · rw [if_pos h8]
        by_cases hd : di + 1 = dst.length
        · rw [if_pos hd]; exact ⟨_, rfl⟩
        · rw [if_neg hd]
          exact ih _ _ _ _ _ hC (by simp only; omega) (by simp only; omega)
      · rw [if_neg h8]
        exact ih _ _ _ _ _ hC (by simp only; omega) (by simp only; omega)

/-- C15: for every `bits_per_channel` `b` (in particular `1`, `2` and `4`), every decoder
cursor `k`, every destination, and two channel buffers of equal length whose channels
agree on `channel AND mask` at every index: `read` ends the same way on both buffers
within the same number of loop steps, and when it returns, it returns the same success
flag, the same destination bytes and the same final cursor; the two results differ in the
buffer alone.  On buffers of fewer than `2 ^ 32` channels with `k` not past the end,
`read` does return, within `C - k + 1` loop steps. -/
theorem C15_read_depends_on_low_bits (b k : Nat) (chans1 chans2 dst : List Nat) (f : Nat)
    (hlen : chans1.length = chans2.length)
    (hlow : ∀ i < chans1.length,
      chans1.getD i 0 &&& maskOf b = chans2.getD i 0 &&& maskOf b) :
    read f ⟨chans2, k, maskOf b, b⟩ dst =
        (read f ⟨chans1, k, maskOf b, b⟩ dst).map (fun r => r.withChannels chans2) ∧
    (∀ r1, read f ⟨chans1, k, maskOf b, b⟩ dst = .done r1 →
      ∃ r2, read f ⟨chans2, k, maskOf b, b⟩ dst = .done r2 ∧ r2.ok = r1.ok ∧
        r2.destination = r1.destination ∧
        r2.decoder.current_channel_index = r1.decoder.current_channel_index) ∧
    (chans1.length < 2 ^ 32 → k ≤ chans1.length → chans1.length - k < f →
      ∃ r1, read f ⟨chans1, k, maskOf b, b⟩ dst = .done r1) := by
  have h : read f ⟨chans2, k, maskOf b, b⟩ dst =
      (read f ⟨chans1, k, maskOf b, b⟩ dst).map (fun r => r.withChannels chans2) := by
    unfold read
    exact readLoop_low_bits (maskOf b) b chans1 chans2 hlen hlow f k _ _ 0 0
  refine ⟨h, ?_, ?_⟩
  · intro r1 h1
    rw [h1] at h
    exact ⟨_, h, rfl, rfl, rfl⟩
  · intro hC hk hf
    unfold read
    exact readLoop_returns f ⟨chans1, k, maskOf b, b⟩ _ _ 0 0 hC hk hf

/-- C15 (witness): the buffers `241, 240, 243, 242` and `1, 0, 3, 2` agree on their low two
bits; a `read` of one byte at two bits per channel returns success, the byte `177` and
the cursor `4` on both. -/
theorem C15_read_depends_on_low_bits_witness :
    [241, 240, 243, 242].length = [1, 0, 3, 2].length ∧
    (∀ i < [241, 240, 243, 242].length,
      [241, 240, 243, 242].getD i 0 &&& maskOf 2 = [1, 0, 3, 2].getD i 0 &&& maskOf 2) ∧
    read 4 ⟨[241, 240, 243, 242], 0, maskOf 2, 2⟩ [99]
      = .done ⟨true, ⟨[241, 240, 243, 242], 4, 3, 2⟩, [177], false⟩ ∧
    read 4 ⟨[1, 0, 3, 2], 0, maskOf 2, 2⟩ [99]
      = (read 4 ⟨[241, 240, 243, 242], 0, maskOf 2, 2⟩ [99]).map
          (fun r => r.withChannels [1, 0, 3, 2]) ∧
    read 4 ⟨[1, 0, 3, 2], 0, maskOf 2, 2⟩ [99]
      = .done ⟨true, ⟨[1, 0, 3, 2], 4, 3, 2⟩, [177], false⟩ :=
  ⟨by decide, by decide, by decide,
    (C15_read_depends_on_low_bits 2 0 [241, 240, 243, 242] [1, 0, 3, 2] [99] 4 (by decide)
      (by decide)).1,
    by decide⟩

end Hnc
